import Mathlib

/-
  Verification of the napkinXC core (PLT training / prediction, per-node
  binary Base classifiers) against its natural-language specification.

  Shallow embedding conventions:
  * C++ `double` values are modeled as exact rationals (ℚ).
  * Sparse feature vectors (`Feature*`, `(index, value)` pairs terminated by a
    sentinel) are modeled as `List (Nat × ℚ)`.
  * A weight vector (`AbstractVector<Weight>`) is modeled by its representation
    tag together with its logical index→weight mapping, kept as an association
    list; the spec states that all three representations realize the same
    logical mapping and are interconvertible.
  * Fallible code (C++ `throw`) is modeled with `Except String`.
-/

namespace NapkinXC

/-- Loss types of the Base classifier (base.h enum). -/
inductive LossType where
  | logistic
  | squaredHinge
  | pwLogistic
  deriving DecidableEq, Repr

/-- Optimizer types (args.h enum). -/
inductive OptimizerType where
  | liblinear
  | sgd
  | adagrad
  deriving DecidableEq, Repr

/-- Weight-vector representation types (base.h enum). -/
inductive RepresentationType where
  | dense
  | map
  | sparse
  deriving DecidableEq, Repr

/-- Modelled from the spec: the polymorphic weight vector
(`AbstractVector<Weight>` with subclasses `Vector`, `MapVector`,
`SparseVector`, declared outside src/).  Per the spec all three
representations carry the same logical index-to-weight mapping; we keep the
representation tag plus the logical mapping as an association list. -/
structure VecM where
  rep : RepresentationType
  entries : List (Nat × ℚ)
  deriving DecidableEq, Repr

/-- Modelled from the spec: `W.at(i)` returns the stored weight, `0` for
absent indices (spec §3 invariant; implementation outside src/). -/
def vecAt (v : VecM) (i : Nat) : ℚ :=
  match v.entries.find? (fun e => e.1 = i) with
  | some e => e.2
  | none => 0

/-- Modelled from the spec: `W.dot(features)` ≡ Σ W.at(f.index)·f.value over
the feature entries (spec §3 invariant; implementation outside src/). -/
def vecDot (v : VecM) (features : List (Nat × ℚ)) : ℚ :=
  features.foldl (fun acc f => acc + vecAt v f.1 * f.2) 0

/-- The Base binary classifier state (fields of class Base, base.h). -/
structure BaseM where
  lossType : LossType
  classCount : Int
  firstClass : Int
  firstClassCount : Int
  t : Int
  W : Option VecM
  G : Option VecM
  deriving DecidableEq, Repr

/-- Base::Base() default constructor (base.cpp:37): logistic loss, zero
counts, null W and G. -/
def baseCtor : BaseM :=
  { lossType := .logistic, classCount := 0, firstClass := 0,
    firstClassCount := 0, t := 0, W := none, G := none }

/-- An empty weight vector, used where the C++ code dereferences `W`
unconditionally (the pointer is assumed non-null there). -/
def emptyVec : VecM := { rep := .dense, entries := [] }

/-- Base::predictValue (base.cpp:282): when fewer than two classes were seen
return `(1 - 2*firstClass) * -10`; otherwise `W·f`, negated when
`firstClass == 0`. -/
def predictValue (b : BaseM) (features : List (Nat × ℚ)) : ℚ :=
  if b.classCount < 2 then (((1 - 2 * b.firstClass) * (-10) : Int) : ℚ)
  else
    let val := vecDot (b.W.getD emptyVec) features
    if b.firstClass = 0 then -val else val

/-- C++ `static_cast<int>` on a double: truncation toward zero. -/
def cppIntCast (x : ℚ) : Int :=
  if 0 ≤ x then ⌊x⌋ else -⌊-x⌋

/-- Outcome of the entry checks of Base::train: either the Base collapses to a
degenerate classifier and the method returns, or training proceeds to build
the binary problem and invoke a solver. -/
inductive TrainStep where
  | collapsed (b : BaseM)
  | solve (positiveLabels : Nat)
  deriving DecidableEq, Repr

/-- The degenerate-case checks at the top of Base::train (base.cpp:204-220):
empty label list ⇒ `firstClass = 0, classCount = 0`, return; all labels equal
(count of `1.0` entries is 0 or the whole list) ⇒ `firstClass =
(int)binLabels[0], classCount = 1`, return; otherwise training proceeds. -/
def trainDegenerate (b : BaseM) (binLabels : List ℚ) : TrainStep :=
  if binLabels.isEmpty then
    .collapsed { b with firstClass := 0, classCount := 0 }
  else
    let positiveLabels := binLabels.countP (fun l => l = 1)
    if positiveLabels = 0 ∨ positiveLabels = binLabels.length then
      .collapsed { b with firstClass := cppIntCast binLabels.headI, classCount := 1 }
    else
      .solve positiveLabels

/-- The slice of Args read by the online update path (args.h). -/
structure ArgsM where
  lossType : LossType
  optimizerType : OptimizerType
  tmax : Int
  deriving DecidableEq, Repr

/-- The gradient selection inside Base::unsafeUpdate (base.cpp:69-72): the
logistic gradient exactly when `args.lossType == logistic`, the squared-hinge
gradient otherwise (the third argument of the gradient function, the inverse
propensity, is the constant 0 on this path).  The gradient functions
themselves live in online_optimization.h, outside src/, so they are taken as
parameters. -/
def chosenGrad (logGrad shGrad : ℚ → ℚ → ℚ → ℚ) (args : ArgsM)
    (label pred : ℚ) : ℚ :=
  if args.lossType = .logistic then logGrad label pred 0
  else shGrad label pred 0

/-- Base::unsafeUpdate (base.cpp:61-85).  `updSGD` and `updAda` model
updateSGD / updateAdaGrad (online_optimization.h, outside src/): they take the
current W and G, the features, the gradient and the step counter and return
the mutated (W, G).  An unknown optimizer throws. -/
def unsafeUpdate (logGrad shGrad : ℚ → ℚ → ℚ → ℚ)
    (updSGD updAda : VecM → VecM → List (Nat × ℚ) → ℚ → Int → VecM × VecM)
    (args : ArgsM) (label : ℚ) (features : List (Nat × ℚ)) (b : BaseM) :
    Except String BaseM :=
  if args.tmax ≠ -1 ∧ args.tmax < b.t then .ok b
  else
    let t1 := b.t + 1
    let fcc := if label = (b.firstClass : ℚ) then b.firstClassCount + 1
               else b.firstClassCount
    let pred := predictValue b features
    let grad := chosenGrad logGrad shGrad args label pred
    match args.optimizerType with
    | .sgd =>
        let wg := updSGD (b.W.getD emptyVec) (b.G.getD emptyVec) features grad t1
        .ok { b with t := t1, firstClassCount := fcc,
                     W := some wg.1, G := some wg.2 }
    | .adagrad =>
        let wg := updAda (b.W.getD emptyVec) (b.G.getD emptyVec) features grad t1
        .ok { b with t := t1, firstClassCount := fcc,
                     W := some wg.1, G := some wg.2 }
    | .liblinear => .error "Unknown optimizer type"

/-- Base::update (base.cpp:55-59): takes the per-Base mutex and calls
unsafeUpdate; the lock has no effect on the sequential state. -/
def update (logGrad shGrad : ℚ → ℚ → ℚ → ℚ)
    (updSGD updAda : VecM → VecM → List (Nat × ℚ) → ℚ → Int → VecM × VecM)
    (args : ArgsM) (label : ℚ) (features : List (Nat × ℚ)) (b : BaseM) :
    Except String BaseM :=
  unsafeUpdate logGrad shGrad updSGD updAda args label features b

/-- Modelled from the spec: a copy constructor `Vector(other)`,
`MapVector(other)`, `SparseVector(other)` (declared outside src/) produces a
vector of the target representation with the same logical index-to-weight
mapping ("Conversion preserves logical values"). -/
def vecConvert (v : VecM) (ty : RepresentationType) : VecM :=
  { rep := ty, entries := v.entries }

/-- Base::vecTo (base.cpp:420-433).  The dynamic-cast probes are modeled by
comparing the representation tag.  The C++ parameter `vec` is a pointer passed
BY VALUE: the function returns the final value of that local pointer, which
the caller discards, so the owning field of the Base is never updated.  Note
the branch structure: when `vec` already has the requested representation none
of the three conversion branches applies and the function throws
"Unknown representation type". -/
def vecTo (vec : Option VecM) (ty : RepresentationType) :
    Except String (Option VecM) :=
  match vec with
  | none => .ok none
  | some v =>
    if ty = .dense ∧ v.rep ≠ .dense then .ok (some (vecConvert v .dense))
    else if ty = .map ∧ v.rep ≠ .map then .ok (some (vecConvert v .map))
    else if ty = .sparse ∧ v.rep ≠ .sparse then .ok (some (vecConvert v .sparse))
    else .error "Unknown representation type"

/-- Base::to (base.cpp:408-411): calls vecTo on W and then on G.  Because
vecTo's pointer parameter is passed by value, the Base fields W and G are
unchanged whenever both calls return (only an exception can escape). -/
def baseTo (b : BaseM) (ty : RepresentationType) : Except String BaseM := do
  let _ ← vecTo b.W ty
  let _ ← vecTo b.G ty
  pure b

/-- One node produced by PLTree::buildCompleteTree (pltree.cpp:325-373). -/
structure CTreeNode where
  index : Nat
  label : Int
  parent : Option Nat
  deriving DecidableEq, Repr, Inhabited

/-- Node-count computation of PLTree::buildCompleteTree (pltree.cpp:331-343),
returning `(t, effective arity)`.  The double arithmetic is modeled exactly
over ℚ: `pow(arity, floor(log(k)/log(arity)))` is `arity ^ (Nat.log arity k)`
and the final `static_cast<int>` truncates (the value is nonnegative, so it is
the floor).  When `arity ≤ 2` the code forces `arity = 2` and `t = 2k-1`. -/
def completeTreeT (k : Nat) (arity : Int) : Nat × Nat :=
  if 2 < arity then
    let ar := arity.toNat
    let a : ℚ := (ar : ℚ) ^ (Nat.log ar k)
    let b : ℚ := (k : ℚ) - a
    let c : ℚ := (⌈b / ((ar : ℚ) - 1)⌉ : ℚ)
    let d : ℚ := ((ar : ℚ) * a - 1) / ((ar : ℚ) - 1)
    let e : ℚ := (k : ℚ) - (a - c)
    ((⌊e + d⌋).toNat, ar)
  else
    (2 * k - 1, 2)

/-- PLTree::buildCompleteTree (pltree.cpp:325-373).  `labelsOrder` models the
shuffled label order used when `randomizeTree` (std::random_shuffle draws from
an RNG, treated as a parameter).  Leaf node `i ≥ ti` gets label `i - ti` (or
its shuffled image); every node `i > 0` gets parent
`floor((i-1)/arity)` with the effective arity; node 0 is the root. -/
def buildCompleteTree (labelCount : Nat) (arity : Int) (randomizeTree : Bool)
    (labelsOrder : Nat → Nat) : List CTreeNode :=
  let k := labelCount
  let ta := completeTreeT k arity
  let t := ta.1
  let ti := t - k
  (List.range t).map (fun i =>
    { index := i,
      label :=
        if ti ≤ i then
          (if randomizeTree then (labelsOrder (i - ti) : Int) else ((i - ti : Nat) : Int))
        else -1,
      parent := if 0 < i then some ((i - 1) / ta.2) else none })

/-- One formatted line of the predict command: the row's first true label and
the list of predicted `label:value` pairs. -/
structure PredictLine where
  trueLabel : Int
  pairs : List (Int × ℚ)
  deriving DecidableEq, Repr

/-- The output loop of the predict command (main.cpp:94-112).  `predictRow`
models `model->predict` for one row.  The code iterates the HARD-CODED range
`for (int r = 0; r < 5000; ++r)` (the loop over `features.rows()` is commented
out), printing one line per iteration: `labels.row(r)[0]` followed by the
predicted pairs.  Out-of-range row accesses (undefined behavior in C++) are
modeled by `getD` defaults. -/
def predictCommandLines (predictRow : List (Nat × ℚ) → List (Int × ℚ))
    (labels : List (List Int)) (features : List (List (Nat × ℚ))) :
    List PredictLine :=
  (List.range 5000).map (fun r =>
    { trueLabel := (labels.getD r []).headI,
      pairs := predictRow (features.getD r []) })

/-
  Assignment engine (PLTree::train, pltree.cpp:72-117).  The tree is an arena
  of node indices `0 .. t-1` with a parent map, per-node children lists, a
  root, and the `treeLeaves` label→leaf map `leafOf`.
-/

/-- The `nPositive` insertion for one label: insert the leaf, then walk
parent pointers to the root inserting every ancestor (pltree.cpp:83-88).
`fuel` bounds the walk; with `fuel ≥ depth n` the whole ancestor chain is
collected. -/
def walkUp (parent : Nat → Option Nat) : Nat → Nat → List Nat
  | 0, n => [n]
  | fuel + 1, n =>
    n :: (match parent n with
          | none => []
          | some p => walkUp parent fuel p)

/-- The positive node set `nPositive` of one training row (pltree.cpp:82-89):
the union over the row's labels of the leaf-to-root ancestor chains. -/
def positiveSet (parent : Nat → Option Nat) (leafOf : Nat → Nat) (fuel : Nat)
    (Y : List Nat) : Finset Nat :=
  Y.foldl (fun acc y => acc ∪ (walkUp parent fuel (leafOf y)).toFinset) ∅

/-- The negative-collecting BFS of one training row (pltree.cpp:91-102): pop a
node, push its children that are positive, record its children that are not.
`fuel` bounds the number of pops. -/
def negQueue (children : Nat → List Nat) (P : Finset Nat) :
    Nat → List Nat → Finset Nat → Finset Nat
  | 0, _, acc => acc
  | _ + 1, [], acc => acc
  | fuel + 1, n :: q, acc =>
    negQueue children P fuel (q ++ (children n).filter (· ∈ P))
      (acc ∪ ((children n).filter (· ∉ P)).toFinset)

/-- Positive/negative node sets of one training row (pltree.cpp:81-103): when
the row has labels, P is the union of leaf-to-root chains and N is collected
by the BFS from the root; when the row has no labels, P = ∅ and N = {root}. -/
def rowAssignment (t : Nat) (parent : Nat → Option Nat)
    (children : Nat → List Nat) (root : Nat) (leafOf : Nat → Nat)
    (Y : List Nat) : Finset Nat × Finset Nat :=
  if Y.isEmpty then (∅, {root})
  else
    let P := positiveSet parent leafOf t Y
    (P, negQueue children P (t + 1) [root] ∅)

/-- The binary label the row contributes to node `n`'s bucket
(pltree.cpp:105-113): `1.0` if `n` is positive, `0.0` if negative, nothing
otherwise. -/
def rowBinLabel (t : Nat) (parent : Nat → Option Nat)
    (children : Nat → List Nat) (root : Nat) (leafOf : Nat → Nat)
    (Y : List Nat) (n : Nat) : Option ℚ :=
  let pn := rowAssignment t parent children root leafOf Y
  if n ∈ pn.1 then some 1 else if n ∈ pn.2 then some 0 else none

/-- `j`-fold application of the parent map (the spec-side notion of
ancestor). -/
def parentIter (parent : Nat → Option Nat) : Nat → Nat → Option Nat
  | 0, n => some n
  | j + 1, n => (parent n).bind (parentIter parent j)

/-- Well-formedness of the arena tree: `t` nodes, a unique root, parent and
children mutually consistent, and a consistent depth function. -/
structure ValidTree (t : Nat) (parent : Nat → Option Nat)
    (children : Nat → List Nat) (root : Nat) (depth : Nat → Nat) : Prop where
  root_lt : root < t
  parent_root : parent root = none
  root_uniq : ∀ n, n < t → parent n = none → n = root
  parent_mem : ∀ n, n < t → ∀ p, parent n = some p → p < t
  children_mem : ∀ p, p < t → ∀ c, c ∈ children p → c < t
  children_iff : ∀ p, p < t → ∀ c, c < t → (c ∈ children p ↔ parent c = some p)
  children_nodup : ∀ p, p < t → (children p).Nodup
  depth_root : depth root = 0
  depth_parent : ∀ n, n < t → ∀ p, parent n = some p → depth n = depth p + 1
  depth_lt : ∀ n, n < t → depth n < t

/-
  Predictor (PLTree::predict, pltree.cpp:154-180).  The tree is the in-memory
  pointer structure, modeled inductively; `bp i` models the value
  `bases[i]->predict(features)` for the fixed feature vector.
-/

/-- In-memory tree node: label (`-1` for internal nodes, the external label id
for leaves), node index, children. -/
inductive TreeB where
  | node (label : Int) (idx : Nat) (children : List TreeB)

/-- Label of a tree node. -/
def TreeB.label : TreeB → Int
  | .node l _ _ => l

/-- Index of a tree node. -/
def TreeB.idx : TreeB → Nat
  | .node _ i _ => i

/-- Children of a tree node. -/
def TreeB.children : TreeB → List TreeB
  | .node _ _ cs => cs

/-- Extraction of a maximal element from the `std::priority_queue` of
`TreeNodeProb` entries ordered by probability.  Returns the selected entry and
the remaining queue; ties are broken toward the earlier entry, which is one of
the insertion-order behaviors the spec leaves unspecified. -/
def popMax : List (TreeB × ℚ) → Option ((TreeB × ℚ) × List (TreeB × ℚ))
  | [] => none
  | x :: xs =>
    match popMax xs with
    | none => some (x, [])
    | some (m, rest) =>
      if m.2 ≤ x.2 then some (x, xs) else some (m, x :: rest)

/-- The prediction loop of PLTree::predict (pltree.cpp:162-179): pop the
maximum; a leaf (`label ≥ 0`) is emitted and the loop stops once `k` emitted;
an internal node pushes each child with the cumulative probability
`p * bases[child]`.  `fuel` bounds the number of pops. -/
def predictLoop (bp : Nat → ℚ) (k : Nat) :
    Nat → List (TreeB × ℚ) → List (Int × ℚ) → List (Int × ℚ)
  | 0, _, acc => acc
  | fuel + 1, q, acc =>
    match popMax q with
    | none => acc
    | some (np, q') =>
      if 0 ≤ np.1.label then
        let acc' := acc ++ [(np.1.label, np.2)]
        if k ≤ acc'.length then acc'
        else predictLoop bp k fuel q' acc'
      else
        predictLoop bp k fuel
          (q' ++ np.1.children.map (fun c => (c, np.2 * bp c.idx))) acc

/-- PLTree::predict (pltree.cpp:154-180): seed the queue with the root and its
probability `bases[root]->predict(features)`, then run the best-first loop. -/
def pltPredict (bp : Nat → ℚ) (tree : TreeB) (k fuel : Nat) : List (Int × ℚ) :=
  predictLoop bp k fuel [(tree, bp tree.idx)] []

mutual

/-- All (subtree, cumulative probability) pairs of the tree when the walk
starts at `tree` with cumulative value `p`: each child's cumulative value is
its parent's times its own base probability, exactly the quantity the
prediction loop pushes. -/
def annot (bp : Nat → ℚ) : TreeB → ℚ → List (TreeB × ℚ)
  | .node l i cs, p => (.node l i cs, p) :: annotList bp cs p

/-- Annotation of a list of sibling subtrees under a parent with cumulative
value `p`. -/
def annotList (bp : Nat → ℚ) : List TreeB → ℚ → List (TreeB × ℚ)
  | [], _ => []
  | c :: cs, p => annot bp c (p * bp c.idx) ++ annotList bp cs p

end

/-
  PLTree serialization (PLTree::save, pltree.cpp:382-407; PLTree::load,
  pltree.cpp:416-444).  The binary stream of ints is modeled as `List Int`;
  reads are positional.
-/

/-- One in-memory PLTree node: the stored `index` and `label` fields, the
parent pointer (as a position in the node vector) and the children pointers
(as positions). -/
structure TreeNodeM where
  index : Int
  label : Int
  parent : Option Nat
  children : List Nat
  deriving DecidableEq, Repr, Inhabited

/-- The in-memory PLTree: label count `k`, the node vector, the position of
`treeRoot`, and `treeLeaves` as an association list label → leaf position. -/
structure PLTreeM where
  k : Int
  nodes : List TreeNodeM
  root : Nat
  leaves : List (Int × Nat)
  deriving DecidableEq, Repr

/-- PLTree::save (pltree.cpp:382-407): write `k`, `t = tree.size()`, each
node's `(index, label)`, the root's `index`, then each node's parent `index`
(`-1` when the parent pointer is null). -/
def saveTree (tr : PLTreeM) : List Int :=
  [tr.k, (tr.nodes.length : Int)]
    ++ (tr.nodes.map (fun n => [n.index, n.label])).flatten
    ++ [(tr.nodes.getD tr.root default).index]
    ++ tr.nodes.map (fun n =>
        match n.parent with
        | some p => (tr.nodes.getD p default).index
        | none => -1)

/-- PLTree::load (pltree.cpp:416-444): read `k` and `t`; create `t` nodes
reading each `(index, label)` and recording `treeLeaves[label]` for
`label ≥ 0` (in node order); read the root POSITION; then read each node's
parent value, linking node `i` as a child of the node AT POSITION `parentN`
when `parentN ≥ 0` (children therefore end up listed in increasing child
position).  Reads are positional over the stream; missing values default. -/
def loadTree (s : List Int) : PLTreeM :=
  let k := s.getD 0 0
  let t := (s.getD 1 0).toNat
  let idx := fun i => s.getD (2 + 2 * i) 0
  let lab := fun i => s.getD (3 + 2 * i) 0
  let rootN := s.getD (2 + 2 * t) 0
  let par := fun i => s.getD (3 + 2 * t + i) 0
  { k := k,
    nodes := (List.range t).map (fun i =>
      { index := idx i,
        label := lab i,
        parent := if 0 ≤ par i then some (par i).toNat else none,
        children := (List.range t).filter (fun j => par j = (i : Int)) }),
    root := rootN.toNat,
    leaves := ((List.range t).filter (fun i => 0 ≤ lab i)).map
      (fun i => (lab i, i)) }

/-
  Base serialization (Base::save, base.cpp:317-334; Base::load,
  base.cpp:336-379).  The byte stream is modeled as a list of typed tokens
  (ints, doubles, bools are distinct fixed-size records).
-/

/-- One token of the Base binary stream. -/
inductive Tok where
  | i (n : Int)
  | q (x : ℚ)
  | b (v : Bool)
  deriving DecidableEq, Repr

/-- Read a token as an int (saveVar/loadVar on int and size_t fields). -/
def Tok.toInt : Tok → Int
  | .i n => n
  | _ => 0

/-- Read a token as a double. -/
def Tok.toRat : Tok → ℚ
  | .q x => x
  | _ => 0

/-- Read a token as a bool. -/
def Tok.asBool : Tok → Bool
  | .b v => v
  | _ => false

/-- Modelled from the spec: the integer encoding of the LossType enum written
by `saveVar(out, lossType)` (enum declaration outside src/). -/
def lossCode : LossType → Int
  | .logistic => 0
  | .squaredHinge => 1
  | .pwLogistic => 2

/-- Modelled from the spec: decoding of the LossType enum on load. -/
def lossDecode : Int → LossType
  | 1 => .squaredHinge
  | 2 => .pwLogistic
  | _ => .logistic

/-- Modelled from the spec: `W->size()`, the logical vector size used only to
estimate the optimal representation (implementation outside src/). -/
def vecSize (v : VecM) : Int :=
  v.entries.length

/-- Modelled from the spec: `W->nonZero()`, the number of nonzero stored
weights (implementation outside src/). -/
def vecNonZero (v : VecM) : Int :=
  (v.entries.filter (fun e => e.2 ≠ 0)).length

/-- Modelled from the spec: the weight-vector blob written by `W->save(out)`
(implementation outside src/).  The spec requires the loader to recover
exactly the logical index-to-weight mapping that was written, so the blob is
the entry count followed by the entries. -/
def vecSave (v : VecM) : List Tok :=
  .i (v.entries.length : Int) :: (v.entries.map (fun e => [Tok.i (e.1 : Int), Tok.q e.2])).flatten

/-- Modelled from the spec: `W->load(in)` starting at stream offset `o`,
recovering the logical entries written by vecSave. -/
def vecLoadEntries (s : List Tok) (o : Nat) : List (Nat × ℚ) :=
  let len := ((s.getD o (.i 0)).toInt).toNat
  (List.range len).map (fun j =>
    (((s.getD (o + 1 + 2 * j) (.i 0)).toInt).toNat,
      (s.getD (o + 2 + 2 * j) (.q 0)).toRat))

/-- Number of stream tokens occupied by the vector blob starting at offset
`o`; `skipLoad` advances past exactly this many tokens. -/
def vecBlobLen (s : List Tok) (o : Nat) : Nat :=
  1 + 2 * ((s.getD o (.i 0)).toInt).toNat

/-- Base::save (base.cpp:317-334): write `classCount`, `firstClass`,
`lossType`; when `classCount > 1` also write `W->size()`, `W->nonZero()`, the
W blob, the `grads` flag (`saveGrads && G != nullptr`) and, when set, the G
blob. -/
def saveBase (b : BaseM) (saveGrads : Bool) : List Tok :=
  [Tok.i b.classCount, Tok.i b.firstClass, Tok.i (lossCode b.lossType)]
    ++ (if 1 < b.classCount then
          let w := b.W.getD emptyVec
          let grads := saveGrads && !(b.G = none)
          [Tok.i (vecSize w), Tok.i (vecNonZero w)]
            ++ vecSave w
            ++ [Tok.b grads]
            ++ (if grads then vecSave (b.G.getD emptyVec) else [])
        else [])

/-- Base::load (base.cpp:336-379) on the Base `b0` (the method mutates
`this`): read `classCount`, `firstClass`, `lossType`; when `classCount > 1`
read `s` and `n0`, choose the representation from the estimators
`Vector::estimateMem` / `MapVector::estimateMem` (outside src/, taken as
parameters) and `loadAs`, load W, read the grads flag, then load G when
requested, skip-and-delete it otherwise; when the flag is unset G stays the
freshly allocated empty vector.  Returns the Base and the final stream
offset. -/
def loadBase (denseEst mapEst : Int → Int → Int) (b0 : BaseM) (s : List Tok)
    (loadGrads : Bool) (loadAs : RepresentationType) : BaseM × Nat :=
  let classCount := (s.getD 0 (.i 0)).toInt
  let firstClass := (s.getD 1 (.i 0)).toInt
  let lossType := lossDecode (s.getD 2 (.i 0)).toInt
  if 1 < classCount then
    let sz := (s.getD 3 (.i 0)).toInt
    let n0 := (s.getD 4 (.i 0)).toInt
    let loadSparse := mapEst sz n0 < denseEst sz n0 ∨ sz = 0
    let rep : RepresentationType :=
      if loadSparse ∧ loadAs = .map then .map
      else if loadAs = .sparse then .sparse
      else .dense
    let wEntries := vecLoadEntries s 5
    let o1 := 5 + vecBlobLen s 5
    let grads := (s.getD o1 (.b false)).asBool
    if grads then
      let o2 := o1 + 1 + vecBlobLen s (o1 + 1)
      if loadGrads then
        ({ b0 with classCount := classCount, firstClass := firstClass,
                   lossType := lossType,
                   W := some { rep := rep, entries := wEntries },
                   G := some { rep := rep, entries := vecLoadEntries s (o1 + 1) } },
         o2)
      else
        ({ b0 with classCount := classCount, firstClass := firstClass,
                   lossType := lossType,
                   W := some { rep := rep, entries := wEntries },
                   G := none },
         o2)
    else
      ({ b0 with classCount := classCount, firstClass := firstClass,
                 lossType := lossType,
                 W := some { rep := rep, entries := wEntries },
                 G := some { rep := rep, entries := [] } },
       o1 + 1)
  else
    ({ b0 with classCount := classCount, firstClass := firstClass,
               lossType := lossType },
     3)

/-- A concrete complete binary tree over 4 labels (7 nodes, root 0, leaves at
positions 3..6 with labels 0..3), used to instantiate the serialization and
assignment theorems. -/
def exampleTree : PLTreeM :=
  { k := 4,
    nodes :=
      [ { index := 0, label := -1, parent := none, children := [1, 2] },
        { index := 1, label := -1, parent := some 0, children := [3, 4] },
        { index := 2, label := -1, parent := some 0, children := [5, 6] },
        { index := 3, label := 0, parent := some 1, children := [] },
        { index := 4, label := 1, parent := some 1, children := [] },
        { index := 5, label := 2, parent := some 2, children := [] },
        { index := 6, label := 3, parent := some 2, children := [] } ],
    root := 0,
    leaves := [(0, 3), (1, 4), (2, 5), (3, 6)] }

/-- A concrete trained Base (two classes, dense W and G) used to instantiate
the serialization round-trip theorem. -/
def exampleBase : BaseM :=
  { lossType := .squaredHinge, classCount := 2, firstClass := 1,
    firstClassCount := 0, t := 0,
    W := some { rep := .dense, entries := [(1, 5), (3, -2)] },
    G := some { rep := .dense, entries := [(2, 7)] } }

/-- Parent map of the 7-node complete binary example tree (arena form). -/
def exParent : Nat → Option Nat := fun n =>
  match n with
  | 1 => some 0
  | 2 => some 0
  | 3 => some 1
  | 4 => some 1
  | 5 => some 2
  | 6 => some 2
  | _ => none

/-- Children map of the example tree. -/
def exChildren : Nat → List Nat := fun n =>
  match n with
  | 0 => [1, 2]
  | 1 => [3, 4]
  | 2 => [5, 6]
  | _ => []

/-- Depth map of the example tree. -/
def exDepth : Nat → Nat := fun n =>
  match n with
  | 0 => 0
  | 1 => 1
  | 2 => 1
  | _ => 2

/-- treeLeaves of the example tree: label y ↦ leaf position. -/
def exLeafOf : Nat → Nat := fun y =>
  match y with
  | 0 => 3
  | 1 => 4
  | 2 => 5
  | _ => 6

/-- The 7-node complete binary tree in pointer (inductive) form, labels 0..3
at leaf indices 3..6. -/
def exTreeB : TreeB :=
  .node (-1) 0
    [ .node (-1) 1 [.node 0 3 [], .node 1 4 []],
      .node (-1) 2 [.node 2 5 [], .node 3 6 []] ]

/-- Concrete per-node probabilities for the example tree, all in [0, 1]. -/
def exProbs : Nat → ℚ := fun i =>
  match i with
  | 0 => 1
  | 1 => 9 / 10
  | 2 => 1 / 10
  | 3 => 4 / 5
  | 4 => 1 / 5
  | 5 => 1 / 2
  | _ => 1 / 2

/-! ### Theorems -/

theorem countP_eq_one_of_all_zero (l : List ℚ) (h : ∀ x ∈ l, x = 0) :
    l.countP (fun x => x = 1) = 0 := by
  rw [List.countP_eq_zero]
  intro a ha
  simp only [decide_eq_true_eq]
  intro h1
  exact absurd (h1 ▸ h a ha) (by norm_num)

theorem countP_eq_length_of_all_one (l : List ℚ) (h : ∀ x ∈ l, x = 1) :
    l.countP (fun x => x = 1) = l.length := by
  rw [List.countP_eq_length]
  intro a ha
  simp only [decide_eq_true_eq]
  exact h a ha

/-- C9: Base::train short-circuits on degenerate data (base.cpp:204-220): an
empty binary label list collapses the Base to `firstClass = 0, classCount = 0`
and returns; a list of identical binary labels collapses it to `firstClass =`
the first label and `classCount = 1` and returns; in both cases the outcome is
`collapsed` (no training problem is built, no solver runs) and W and G are
untouched. -/
theorem train_degenerate_shortcircuit (b : BaseM) (binLabels : List ℚ)
    (hbin : ∀ l ∈ binLabels, l = 0 ∨ l = 1) :
    (binLabels = [] →
      trainDegenerate b binLabels =
        .collapsed { b with firstClass := 0, classCount := 0 }) ∧
    (binLabels ≠ [] → (∀ l ∈ binLabels, l = binLabels.headI) →
      ∃ b', trainDegenerate b binLabels = .collapsed b' ∧
        (b'.firstClass : ℚ) = binLabels.headI ∧ b'.classCount = 1 ∧
        b'.W = b.W ∧ b'.G = b.G) ∧
    (∀ b', trainDegenerate b binLabels = .collapsed b' →
      b'.W = b.W ∧ b'.G = b.G) := by
  refine ⟨?_, ?_, ?_⟩
  · intro h
    subst h
    rfl
  · intro hne hall
    match binLabels, hne with
    | a :: l, _ =>
      have ha : a = 0 ∨ a = 1 := hbin a (by simp)
      have hallh : ∀ x ∈ a :: l, x = a := hall
      refine ⟨{ b with firstClass := cppIntCast a, classCount := 1 }, ?_, ?_, rfl, rfl, rfl⟩
      · unfold trainDegenerate
        rw [if_neg (by simp)]
        simp only [List.headI]
        rw [if_pos]
        rcases ha with h0 | h1
        · left
          exact countP_eq_one_of_all_zero _ (fun x hx => (hallh x hx).trans h0)
        · right
          exact countP_eq_length_of_all_one _ (fun x hx => (hallh x hx).trans h1)
      · show ((cppIntCast a : Int) : ℚ) = (a :: l).headI
        rcases ha with h0 | h1 <;> subst a <;> rfl
  · intro b' hb'
    simp only [trainDegenerate] at hb'
    split at hb'
    · cases hb'
      exact ⟨rfl, rfl⟩
    · split at hb'
      · cases hb'
        exact ⟨rfl, rfl⟩
      · cases hb'

/-- Witness for train_degenerate_shortcircuit at `b = baseCtor`,
`binLabels = [1, 1]`. -/
theorem train_degenerate_shortcircuit_witness :
    (∀ l ∈ ([1, 1] : List ℚ), l = 0 ∨ l = 1) ∧
    ((([1, 1] : List ℚ) = [] →
      trainDegenerate baseCtor [1, 1] =
        .collapsed { baseCtor with firstClass := 0, classCount := 0 }) ∧
    (([1, 1] : List ℚ) ≠ [] → (∀ l ∈ ([1, 1] : List ℚ), l = ([1, 1] : List ℚ).headI) →
      ∃ b', trainDegenerate baseCtor [1, 1] = .collapsed b' ∧
        (b'.firstClass : ℚ) = ([1, 1] : List ℚ).headI ∧ b'.classCount = 1 ∧
        b'.W = baseCtor.W ∧ b'.G = baseCtor.G) ∧
    (∀ b', trainDegenerate baseCtor [1, 1] = .collapsed b' →
      b'.W = baseCtor.W ∧ b'.G = baseCtor.G)) :=
  ⟨by decide, train_degenerate_shortcircuit baseCtor [1, 1] (by decide)⟩

/-- C2 counterexample: a Base trained on an empty dataset has
`firstClass = 0`, hence `predictValue` returns −10, not +10 as claimed. -/
theorem empty_base_predictValue_counterexample :
    trainDegenerate baseCtor [] =
      .collapsed { baseCtor with firstClass := 0, classCount := 0 } ∧
    predictValue { baseCtor with firstClass := 0, classCount := 0 } [] = -10 ∧
    ¬ (predictValue { baseCtor with firstClass := 0, classCount := 0 } [] = 10) := by
  refine ⟨rfl, by decide, by decide⟩

/-- C2 (amended): training on an empty dataset gives `classCount = 0` and
`predictValue = −10` on every feature vector; training on an all-ones label
list gives `classCount = 1`, `firstClass = 1` and `predictValue = +10` on
every feature vector (base.cpp:204-220, 282-288). -/
theorem degenerate_base_predictValue (features : List (Nat × ℚ))
    (binLabels : List ℚ) (hne : binLabels ≠ []) (hall : ∀ l ∈ binLabels, l = 1) :
    (∃ b, trainDegenerate baseCtor [] = .collapsed b ∧
      b.classCount = 0 ∧ predictValue b features = -10) ∧
    (∃ b, trainDegenerate baseCtor binLabels = .collapsed b ∧
      b.classCount = 1 ∧ b.firstClass = 1 ∧ predictValue b features = 10) := by
  constructor
  · refine ⟨{ baseCtor with firstClass := 0, classCount := 0 }, rfl, rfl, ?_⟩
    simp [predictValue, baseCtor]
  · match binLabels, hne with
    | a :: l, _ =>
      have ha : a = 1 := hall a (by simp)
      subst ha
      refine ⟨{ baseCtor with firstClass := 1, classCount := 1 }, ?_, rfl, rfl, ?_⟩
      · unfold trainDegenerate
        rw [if_neg (by simp)]
        simp only
        rw [if_pos]
        · show TrainStep.collapsed { baseCtor with firstClass := cppIntCast (List.headI (1 :: l)), classCount := 1 } = _
          norm_num [cppIntCast, List.headI]
        · right
          exact countP_eq_length_of_all_one _ hall
      · simp [predictValue, baseCtor]

/-- Witness for degenerate_base_predictValue at a one-feature vector and the
label list `[1]`. -/
theorem degenerate_base_predictValue_witness :
    (([1] : List ℚ) ≠ []) ∧ (∀ l ∈ ([1] : List ℚ), l = 1) ∧
    ((∃ b, trainDegenerate baseCtor [] = .collapsed b ∧
      b.classCount = 0 ∧ predictValue b [(1, 1)] = -10) ∧
    (∃ b, trainDegenerate baseCtor [1] = .collapsed b ∧
      b.classCount = 1 ∧ b.firstClass = 1 ∧ predictValue b [(1, 1)] = 10)) :=
  ⟨by decide, by decide, degenerate_base_predictValue [(1, 1)] [1] (by decide) (by decide)⟩

/-- C10: the online update (base.cpp:55-85).  When `tmax ≠ -1` and
`tmax < t`, both update and unsafeUpdate return the Base unchanged (t,
firstClassCount, W, G untouched).  Otherwise the gradient fed to the
optimizer step is the logistic gradient exactly when `args.lossType` is
logistic and the squared-hinge gradient for every other loss type (including
pwLogistic), always with inverse propensity 0; the step counter is
incremented, the first-class counter conditionally, and the chosen optimizer
step produces the new W and G. -/
theorem update_gradient_selection (logGrad shGrad : ℚ → ℚ → ℚ → ℚ)
    (updSGD updAda : VecM → VecM → List (Nat × ℚ) → ℚ → Int → VecM × VecM)
    (args : ArgsM) (label : ℚ) (features : List (Nat × ℚ)) (b : BaseM) :
    (args.tmax ≠ -1 → args.tmax < b.t →
      update logGrad shGrad updSGD updAda args label features b = .ok b ∧
      unsafeUpdate logGrad shGrad updSGD updAda args label features b = .ok b) ∧
    (args.lossType = .logistic →
      chosenGrad logGrad shGrad args label (predictValue b features) =
        logGrad label (predictValue b features) 0) ∧
    (args.lossType ≠ .logistic →
      chosenGrad logGrad shGrad args label (predictValue b features) =
        shGrad label (predictValue b features) 0) ∧
    (¬ (args.tmax ≠ -1 ∧ args.tmax < b.t) → args.optimizerType = .sgd →
      unsafeUpdate logGrad shGrad updSGD updAda args label features b =
        .ok { b with
          t := b.t + 1,
          firstClassCount :=
            if label = (b.firstClass : ℚ) then b.firstClassCount + 1
            else b.firstClassCount,
          W := some (updSGD (b.W.getD emptyVec) (b.G.getD emptyVec) features
            (chosenGrad logGrad shGrad args label (predictValue b features))
            (b.t + 1)).1,
          G := some (updSGD (b.W.getD emptyVec) (b.G.getD emptyVec) features
            (chosenGrad logGrad shGrad args label (predictValue b features))
            (b.t + 1)).2 }) ∧
    (¬ (args.tmax ≠ -1 ∧ args.tmax < b.t) → args.optimizerType = .adagrad →
      unsafeUpdate logGrad shGrad updSGD updAda args label features b =
        .ok { b with
          t := b.t + 1,
          firstClassCount :=
            if label = (b.firstClass : ℚ) then b.firstClassCount + 1
            else b.firstClassCount,
          W := some (updAda (b.W.getD emptyVec) (b.G.getD emptyVec) features
            (chosenGrad logGrad shGrad args label (predictValue b features))
            (b.t + 1)).1,
          G := some (updAda (b.W.getD emptyVec) (b.G.getD emptyVec) features
            (chosenGrad logGrad shGrad args label (predictValue b features))
            (b.t + 1)).2 }) := by
  refine ⟨?_, ?_, ?_, ?_, ?_⟩
  · intro h1 h2
    have hu : unsafeUpdate logGrad shGrad updSGD updAda args label features b = .ok b := by
      unfold unsafeUpdate
      rw [if_pos ⟨h1, h2⟩]
    exact ⟨hu, hu⟩
  · intro h
    unfold chosenGrad
    rw [if_pos h]
  · intro h
    unfold chosenGrad
    rw [if_neg h]
  · intro h hopt
    unfold unsafeUpdate
    rw [if_neg h, hopt]
  · intro h hopt
    unfold unsafeUpdate
    rw [if_neg h, hopt]

/-- Witness for update_gradient_selection with constant gradient/step
functions, logistic loss, sgd optimizer, `tmax = 5 < t = 9`. -/
theorem update_gradient_selection_witness :
    ((5 : Int) ≠ -1) ∧ ((5 : Int) < 9) ∧
    (update (fun _ _ _ => 1) (fun _ _ _ => 2) (fun w g _ _ _ => (w, g))
        (fun w g _ _ _ => (w, g)) ⟨.logistic, .sgd, 5⟩ 1 []
        { baseCtor with t := 9 } = .ok { baseCtor with t := 9 } ∧
      unsafeUpdate (fun _ _ _ => 1) (fun _ _ _ => 2) (fun w g _ _ _ => (w, g))
        (fun w g _ _ _ => (w, g)) ⟨.logistic, .sgd, 5⟩ 1 []
        { baseCtor with t := 9 } = .ok { baseCtor with t := 9 }) :=
  ⟨by decide, by decide,
    (update_gradient_selection (fun _ _ _ => 1) (fun _ _ _ => 2)
      (fun w g _ _ _ => (w, g)) (fun w g _ _ _ => (w, g))
      ⟨.logistic, .sgd, 5⟩ 1 [] { baseCtor with t := 9 }).1 (by decide) (by decide)⟩

/-- C3: Base::to / Base::vecTo (base.cpp:408-433) contradict the claim on two
counts.  First, when the vector already has the requested representation none
of the three conversion branches matches and vecTo throws
"Unknown representation type" instead of being a no-op (the dead
`if (newVec != nullptr)` guard shows a no-op was intended).  Second, for a
genuine conversion vecTo only reassigns its BY-VALUE pointer parameter after
deleting the old vector, so Base::to returns with W and G unchanged (dangling
in C++): here a map-represented W survives a request to convert to dense. -/
theorem vecTo_same_type_bug :
    vecTo (some { rep := .dense, entries := [(1, 1)] }) .dense =
      .error "Unknown representation type" ∧
    baseTo { baseCtor with
        classCount := 2,
        W := some { rep := .map, entries := [(1, 1)] } } .dense =
      .ok { baseCtor with
        classCount := 2,
        W := some { rep := .map, entries := [(1, 1)] } } := by
  exact ⟨rfl, rfl⟩

/-- C4: the predict command (main.cpp:94-112) iterates the hard-coded row
range `[0, 5000)` — the loop over `features.rows()` is commented out — so on a
one-row dataset it prints 5000 lines, not one line per input row. -/
theorem predictCommand_5000_lines :
    (predictCommandLines (fun _ => []) [[3]] [[]]).length = 5000 ∧
    (5000 : Nat) ≠ 1 := by
  constructor
  · simp [predictCommandLines]
  · decide

theorem getD_range_map {α : Type} [Inhabited α] (f : Nat → α) (t i : Nat)
    (h : i < t) (d : α) : ((List.range t).map f).getD i d = f i := by
  simp [List.getD_eq_getElem?_getD, List.getElem?_map, List.getElem?_range, h]

theorem buildCompleteTree_length (k : Nat) (arity : Int) (rnd : Bool)
    (ord : Nat → Nat) :
    (buildCompleteTree k arity rnd ord).length = (completeTreeT k arity).1 := by
  simp [buildCompleteTree]

theorem buildCompleteTree_getD (k : Nat) (arity : Int) (rnd : Bool)
    (ord : Nat → Nat) (i : Nat) (hi : i < (completeTreeT k arity).1)
    (d : CTreeNode) :
    (buildCompleteTree k arity rnd ord).getD i d =
      { index := i,
        label :=
          if (completeTreeT k arity).1 - k ≤ i then
            (if rnd then (ord (i - ((completeTreeT k arity).1 - k)) : Int)
             else ((i - ((completeTreeT k arity).1 - k) : Nat) : Int))
          else -1,
        parent := if 0 < i then some ((i - 1) / (completeTreeT k arity).2) else none } := by
  unfold buildCompleteTree
  exact getD_range_map _ _ _ hi _

theorem completeTreeT_formula (k : Nat) (arity : Int) (hk : 1 ≤ k)
    (h : 2 < arity) :
    (k : ℤ) ≤
      ⌊((k : ℚ) - ((arity.toNat : ℚ) ^ (Nat.log arity.toNat k) -
          (⌈(((k : ℚ) - (arity.toNat : ℚ) ^ (Nat.log arity.toNat k)) /
              ((arity.toNat : ℚ) - 1))⌉ : ℚ))) +
        ((arity.toNat : ℚ) * ((arity.toNat : ℚ) ^ (Nat.log arity.toNat k)) - 1) /
          ((arity.toNat : ℚ) - 1)⌋ ∧
    (completeTreeT k arity).1 =
      (⌊((k : ℚ) - ((arity.toNat : ℚ) ^ (Nat.log arity.toNat k) -
          (⌈(((k : ℚ) - (arity.toNat : ℚ) ^ (Nat.log arity.toNat k)) /
              ((arity.toNat : ℚ) - 1))⌉ : ℚ))) +
        ((arity.toNat : ℚ) * ((arity.toNat : ℚ) ^ (Nat.log arity.toNat k)) - 1) /
          ((arity.toNat : ℚ) - 1)⌋).toNat := by
  have har : 3 ≤ arity.toNat := by omega
  have hpos : (0 : ℚ) < (arity.toNat : ℚ) - 1 := by
    have : (3 : ℚ) ≤ (arity.toNat : ℚ) := by exact_mod_cast har
    linarith
  have ha1 : (1 : ℚ) ≤ (arity.toNat : ℚ) ^ (Nat.log arity.toNat k) := by
    apply one_le_pow₀
    have : (3 : ℚ) ≤ (arity.toNat : ℚ) := by exact_mod_cast har
    linarith
  have hak : ((arity.toNat : ℚ) ^ (Nat.log arity.toNat k)) ≤ (k : ℚ) := by
    have := Nat.pow_log_le_self arity.toNat (by omega : k ≠ 0)
    exact_mod_cast this
  have hc : (0 : ℚ) ≤
      (⌈(((k : ℚ) - (arity.toNat : ℚ) ^ (Nat.log arity.toNat k)) /
          ((arity.toNat : ℚ) - 1))⌉ : ℚ) := by
    have hnum : (0 : ℚ) ≤
        ((k : ℚ) - (arity.toNat : ℚ) ^ (Nat.log arity.toNat k)) /
          ((arity.toNat : ℚ) - 1) := by
      apply div_nonneg (by linarith) (le_of_lt hpos)
    exact_mod_cast Int.ceil_nonneg hnum
  have hda : ((arity.toNat : ℚ) ^ (Nat.log arity.toNat k)) ≤
      ((arity.toNat : ℚ) * ((arity.toNat : ℚ) ^ (Nat.log arity.toNat k)) - 1) /
        ((arity.toNat : ℚ) - 1) := by
    rw [le_div_iff₀ hpos]
    ring_nf
    nlinarith
  have hle : (k : ℤ) ≤
      ⌊((k : ℚ) - ((arity.toNat : ℚ) ^ (Nat.log arity.toNat k) -
          (⌈(((k : ℚ) - (arity.toNat : ℚ) ^ (Nat.log arity.toNat k)) /
              ((arity.toNat : ℚ) - 1))⌉ : ℚ))) +
        ((arity.toNat : ℚ) * ((arity.toNat : ℚ) ^ (Nat.log arity.toNat k)) - 1) /
          ((arity.toNat : ℚ) - 1)⌋ := by
    rw [Int.le_floor]
    push_cast
    linarith
  refine ⟨hle, ?_⟩
  simp only [completeTreeT]
  rw [if_pos h]

theorem completeTreeT_k_le (k : Nat) (arity : Int) (hk : 1 ≤ k) :
    k ≤ (completeTreeT k arity).1 := by
  by_cases h : 2 < arity
  · obtain ⟨hle, heq⟩ := completeTreeT_formula k arity hk h
    rw [heq]
    omega
  · simp only [completeTreeT]
    rw [if_neg h]
    omega

/-- C6 counterexample: with `k = 2` labels and arity `a = 1`, the code forces
the effective arity to 2, so node 2's parent is `⌊(2−1)/2⌋ = 0`, while the
claim's formula `⌊(i−1)/a⌋` gives `⌊(2−1)/1⌋ = 1`. -/
theorem completeTree_parent_counterexample :
    ((buildCompleteTree 2 1 false (fun n => n)).getD 2 default).parent = some 0 ∧
    ((2 - 1 : Nat) / 1 : Nat) = 1 ∧ some (0 : Nat) ≠ some (1 : Nat) := by
  refine ⟨by decide, by decide, by decide⟩

/-- C6 (amended): buildCompleteTree (pltree.cpp:325-373) for `k ≥ 1` labels:
`t = 2k − 1` nodes when arity ≤ 2, and `t = ⌊E + D⌋` per the claim's formula
when arity > 2; nodes `0 … ti−1` (`ti = t − k`) are internal (label −1), nodes
`ti … t−1` are leaves carrying the k labels (in given or shuffled order), node
0 is the root (null parent), and every node `i > 0` has parent
`⌊(i−1)/max(a,2)⌋` — the code forces the effective arity to 2 whenever
`a ≤ 2`, which is the only change from the claim. -/
theorem completeTree_structure (k : Nat) (arity : Int) (rnd : Bool)
    (ord : Nat → Nat) (hk : 1 ≤ k) :
    (arity ≤ 2 → (buildCompleteTree k arity rnd ord).length = 2 * k - 1) ∧
    (2 < arity →
      ((buildCompleteTree k arity rnd ord).length : ℤ) =
        ⌊((k : ℚ) - ((arity.toNat : ℚ) ^ (Nat.log arity.toNat k) -
            (⌈(((k : ℚ) - (arity.toNat : ℚ) ^ (Nat.log arity.toNat k)) /
                ((arity.toNat : ℚ) - 1))⌉ : ℚ))) +
          ((arity.toNat : ℚ) * ((arity.toNat : ℚ) ^ (Nat.log arity.toNat k)) - 1) /
            ((arity.toNat : ℚ) - 1)⌋) ∧
    k ≤ (buildCompleteTree k arity rnd ord).length ∧
    (∀ i, i < (buildCompleteTree k arity rnd ord).length →
      ((buildCompleteTree k arity rnd ord).getD i default).index = i) ∧
    (∀ i, i < (buildCompleteTree k arity rnd ord).length - k →
      ((buildCompleteTree k arity rnd ord).getD i default).label = -1) ∧
    (∀ i, (buildCompleteTree k arity rnd ord).length - k ≤ i →
      i < (buildCompleteTree k arity rnd ord).length →
      ((buildCompleteTree k arity rnd ord).getD i default).label =
        (if rnd then (ord (i - ((buildCompleteTree k arity rnd ord).length - k)) : Int)
         else ((i - ((buildCompleteTree k arity rnd ord).length - k) : Nat) : Int))) ∧
    (((buildCompleteTree k arity rnd ord).getD 0 default).parent = none) ∧
    (∀ i, 0 < i → i < (buildCompleteTree k arity rnd ord).length →
      ((buildCompleteTree k arity rnd ord).getD i default).parent =
        some ((i - 1) / (if 2 < arity then arity.toNat else 2))) := by
  have hlen := buildCompleteTree_length k arity rnd ord
  have hkt := completeTreeT_k_le k arity hk
  have harity : (completeTreeT k arity).2 = if 2 < arity then arity.toNat else 2 := by
    by_cases h : 2 < arity
    · simp only [completeTreeT]
      rw [if_pos h, if_pos h]
    · simp only [completeTreeT]
      rw [if_neg h, if_neg h]
  refine ⟨?_, ?_, ?_, ?_, ?_, ?_, ?_, ?_⟩
  · intro h
    rw [hlen]
    simp only [completeTreeT]
    rw [if_neg (by omega)]
  · intro h
    obtain ⟨hle, heq⟩ := completeTreeT_formula k arity hk h
    rw [hlen, heq]
    rw [Int.toNat_of_nonneg (by omega)]
  · omega
  · intro i hi
    rw [hlen] at hi
    rw [buildCompleteTree_getD k arity rnd ord i hi]
  · intro i hi
    rw [hlen] at hi
    rw [buildCompleteTree_getD k arity rnd ord i (by omega)]
    simp only
    rw [if_neg (by omega)]
  · intro i hi1 hi2
    rw [hlen] at hi1 hi2 ⊢
    rw [buildCompleteTree_getD k arity rnd ord i hi2]
    simp only
    rw [if_pos (by omega)]
  · rw [buildCompleteTree_getD k arity rnd ord 0 (by omega)]
    simp
  · intro i hi1 hi2
    rw [hlen] at hi2
    rw [buildCompleteTree_getD k arity rnd ord i hi2]
    simp only
    rw [if_pos hi1, harity]

theorem getD_append_lt {α : Type} (l₁ l₂ : List α) (i : Nat) (h : i < l₁.length)
    (d : α) : (l₁ ++ l₂).getD i d = l₁.getD i d := by
  simp [List.getD_eq_getElem?_getD, List.getElem?_append_left h]

theorem getD_append_ge {α : Type} (l₁ l₂ : List α) (i : Nat) (h : l₁.length ≤ i)
    (d : α) : (l₁ ++ l₂).getD i d = l₂.getD (i - l₁.length) d := by
  simp [List.getD_eq_getElem?_getD, List.getElem?_append_right h]

theorem getD_map_lt {α β : Type} (f : α → β) (l : List α) (i : Nat)
    (hi : i < l.length) (da : α) (db : β) :
    (l.map f).getD i db = f (l.getD i da) := by
  simp [List.getD_eq_getElem?_getD, List.getElem?_map, List.getElem?_eq_getElem hi]

theorem flatten_pairs_length {α β : Type} (g h : α → β) (l : List α) :
    ((l.map (fun x => [g x, h x])).flatten).length = 2 * l.length := by
  induction l with
  | nil => simp
  | cons a tl ih => simp [ih]; omega

theorem flatten_pairs_getD {α β : Type} (g h : α → β) (l : List α) (i : Nat)
    (hi : i < l.length) (da : α) (db : β) :
    ((l.map (fun x => [g x, h x])).flatten).getD (2 * i) db = g (l.getD i da) ∧
    ((l.map (fun x => [g x, h x])).flatten).getD (2 * i + 1) db = h (l.getD i da) := by
  induction l generalizing i with
  | nil => simp at hi
  | cons a tl ih =>
    match i with
    | 0 => simp
    | j + 1 =>
      have hj : j < tl.length := by simpa using hi
      have h2 : 2 * (j + 1) = 2 * j + 2 := by omega
      rw [h2]
      have h3 : 2 * j + 2 + 1 = (2 * j + 1) + 2 := by omega
      rw [h3]
      simp only [List.map_cons, List.flatten_cons, List.cons_append, List.nil_append,
        List.getD_cons_succ, List.getD_cons_zero]
      exact ih j hj

/-- Witness for completeTree_structure at `k = 9`, arity 3, no
randomization. -/
theorem completeTree_structure_witness :
    (1 ≤ 9) ∧
    (((3 : Int) ≤ 2 → (buildCompleteTree 9 3 false (fun n => n)).length = 2 * 9 - 1) ∧
    (2 < (3 : Int) →
      ((buildCompleteTree 9 3 false (fun n => n)).length : ℤ) =
        ⌊((9 : ℚ) - (((3 : Int).toNat : ℚ) ^ (Nat.log (3 : Int).toNat 9) -
            (⌈(((9 : ℚ) - ((3 : Int).toNat : ℚ) ^ (Nat.log (3 : Int).toNat 9)) /
                (((3 : Int).toNat : ℚ) - 1))⌉ : ℚ))) +
          (((3 : Int).toNat : ℚ) * (((3 : Int).toNat : ℚ) ^ (Nat.log (3 : Int).toNat 9)) - 1) /
            (((3 : Int).toNat : ℚ) - 1)⌋) ∧
    9 ≤ (buildCompleteTree 9 3 false (fun n => n)).length ∧
    (∀ i, i < (buildCompleteTree 9 3 false (fun n => n)).length →
      ((buildCompleteTree 9 3 false (fun n => n)).getD i default).index = i) ∧
    (∀ i, i < (buildCompleteTree 9 3 false (fun n => n)).length - 9 →
      ((buildCompleteTree 9 3 false (fun n => n)).getD i default).label = -1) ∧
    (∀ i, (buildCompleteTree 9 3 false (fun n => n)).length - 9 ≤ i →
      i < (buildCompleteTree 9 3 false (fun n => n)).length →
      ((buildCompleteTree 9 3 false (fun n => n)).getD i default).label =
        (if false then ((fun n => n) (i - ((buildCompleteTree 9 3 false (fun n => n)).length - 9)) : Int)
         else ((i - ((buildCompleteTree 9 3 false (fun n => n)).length - 9) : Nat) : Int))) ∧
    (((buildCompleteTree 9 3 false (fun n => n)).getD 0 default).parent = none) ∧
    (∀ i, 0 < i → i < (buildCompleteTree 9 3 false (fun n => n)).length →
      ((buildCompleteTree 9 3 false (fun n => n)).getD i default).parent =
        some ((i - 1) / (if 2 < (3 : Int) then (3 : Int).toNat else 2)))) :=
  ⟨by decide, completeTree_structure 9 3 false (fun n => n) (by decide)⟩

theorem saveTree_eq (tr : PLTreeM) :
    saveTree tr = tr.k :: (tr.nodes.length : Int) ::
      ((tr.nodes.map (fun n => [n.index, n.label])).flatten ++
        ((tr.nodes.getD tr.root default).index ::
          tr.nodes.map (fun n =>
            match n.parent with
            | some p => (tr.nodes.getD p default).index
            | none => -1))) := by
  simp [saveTree]

/-- C7: PLTree::save (pltree.cpp:382-407) followed by PLTree::load
(pltree.cpp:416-444) round-trips a valid tree: same `k`, same node count, the
same per-node indices, labels and parent relation, the same root, children
lists listing exactly the children under the parent relation (in position
order), and `treeLeaves` holding exactly the label→position pairs of the
nodes with nonnegative label.  Validity: node at position `i` stores index
`i` (true of every tree this program builds), the root position is in range,
and parent positions are in range. -/
theorem tree_save_load_roundtrip (tr : PLTreeM)
    (hidx : ∀ i, i < tr.nodes.length → (tr.nodes.getD i default).index = (i : Int))
    (hroot : tr.root < tr.nodes.length)
    (hpar : ∀ i, i < tr.nodes.length → ∀ p,
      (tr.nodes.getD i default).parent = some p → p < tr.nodes.length) :
    (loadTree (saveTree tr)).k = tr.k ∧
    (loadTree (saveTree tr)).nodes.length = tr.nodes.length ∧
    (loadTree (saveTree tr)).root = tr.root ∧
    (∀ i, i < tr.nodes.length →
      ((loadTree (saveTree tr)).nodes.getD i default).index =
        (tr.nodes.getD i default).index ∧
      ((loadTree (saveTree tr)).nodes.getD i default).label =
        (tr.nodes.getD i default).label ∧
      ((loadTree (saveTree tr)).nodes.getD i default).parent =
        (tr.nodes.getD i default).parent ∧
      ((loadTree (saveTree tr)).nodes.getD i default).children =
        (List.range tr.nodes.length).filter
          (fun j => (tr.nodes.getD j default).parent = some i)) ∧
    (∀ l p, (l, p) ∈ (loadTree (saveTree tr)).leaves ↔
      p < tr.nodes.length ∧ (tr.nodes.getD p default).label = l ∧ 0 ≤ l) := by
  have hs := saveTree_eq tr
  have hflatlen : ((tr.nodes.map (fun n => [n.index, n.label])).flatten).length =
      2 * tr.nodes.length := flatten_pairs_length _ _ _
  -- stream reads
  have hread0 : (saveTree tr).getD 0 0 = tr.k := by
    rw [hs]; rfl
  have hread1 : (saveTree tr).getD 1 0 = (tr.nodes.length : Int) := by
    rw [hs]; rfl
  have hreadIdx : ∀ i, i < tr.nodes.length →
      (saveTree tr).getD (2 + 2 * i) 0 = (tr.nodes.getD i default).index := by
    intro i hi
    rw [hs]
    have h2 : 2 + 2 * i = 2 * i + 2 := by omega
    rw [h2]
    simp only [List.getD_cons_succ]
    rw [getD_append_lt _ _ _ (by omega)]
    exact (flatten_pairs_getD (fun n => n.index) (fun n => n.label)
      tr.nodes i hi default 0).1
  have hreadLab : ∀ i, i < tr.nodes.length →
      (saveTree tr).getD (3 + 2 * i) 0 = (tr.nodes.getD i default).label := by
    intro i hi
    rw [hs]
    have h2 : 3 + 2 * i = (2 * i + 1) + 2 := by omega
    rw [h2]
    simp only [List.getD_cons_succ]
    rw [getD_append_lt _ _ _ (by omega)]
    exact (flatten_pairs_getD (fun n => n.index) (fun n => n.label)
      tr.nodes i hi default 0).2
  have hreadRoot : (saveTree tr).getD (2 + 2 * tr.nodes.length) 0 =
      (tr.nodes.getD tr.root default).index := by
    rw [hs]
    have h2 : 2 + 2 * tr.nodes.length = 2 * tr.nodes.length + 2 := by omega
    rw [h2]
    simp only [List.getD_cons_succ]
    rw [getD_append_ge _ _ _ (by omega)]
    rw [hflatlen]
    simp
  have hreadPar : ∀ i, i < tr.nodes.length →
      (saveTree tr).getD (3 + 2 * tr.nodes.length + i) 0 =
        (match (tr.nodes.getD i default).parent with
          | some p => (tr.nodes.getD p default).index
          | none => -1) := by
    intro i hi
    rw [hs]
    have h2 : 3 + 2 * tr.nodes.length + i = (2 * tr.nodes.length + i + 1) + 2 := by
      omega
    rw [h2]
    simp only [List.getD_cons_succ]
    rw [getD_append_ge _ _ _ (by omega)]
    rw [hflatlen]
    have h3 : 2 * tr.nodes.length + i + 1 - 2 * tr.nodes.length = i + 1 := by omega
    rw [h3]
    simp only [List.getD_cons_succ]
    exact getD_map_lt _ tr.nodes i hi default 0
  -- decoded header
  have hT : ((saveTree tr).getD 1 0).toNat = tr.nodes.length := by
    rw [hread1]; exact Int.toNat_natCast _
  have hk' : (loadTree (saveTree tr)).k = tr.k := hread0
  have hnodes : (loadTree (saveTree tr)).nodes =
      (List.range tr.nodes.length).map (fun i =>
        { index := (saveTree tr).getD (2 + 2 * i) 0,
          label := (saveTree tr).getD (3 + 2 * i) 0,
          parent :=
            if 0 ≤ (saveTree tr).getD (3 + 2 * tr.nodes.length + i) 0 then
              some ((saveTree tr).getD (3 + 2 * tr.nodes.length + i) 0).toNat
            else none,
          children := (List.range tr.nodes.length).filter
            (fun j => (saveTree tr).getD (3 + 2 * tr.nodes.length + j) 0 = (i : Int)) }) := by
    show (List.range ((saveTree tr).getD 1 0).toNat).map _ = _
    rw [hT]
  have hroot' : (loadTree (saveTree tr)).root = tr.root := by
    show ((saveTree tr).getD (2 + 2 * ((saveTree tr).getD 1 0).toNat) 0).toNat = tr.root
    rw [hT, hreadRoot, hidx tr.root hroot]
    exact Int.toNat_natCast _
  have hleaves : (loadTree (saveTree tr)).leaves =
      ((List.range tr.nodes.length).filter
        (fun i => 0 ≤ (saveTree tr).getD (3 + 2 * i) 0)).map
        (fun i => ((saveTree tr).getD (3 + 2 * i) 0, i)) := by
    show ((List.range ((saveTree tr).getD 1 0).toNat).filter _).map _ = _
    rw [hT]
  refine ⟨hk', ?_, hroot', ?_, ?_⟩
  · rw [hnodes]
    simp
  · intro i hi
    rw [hnodes, getD_range_map _ _ _ hi]
    refine ⟨hreadIdx i hi, hreadLab i hi, ?_, ?_⟩
    · simp only [hreadPar i hi]
      cases hp : (tr.nodes.getD i default).parent with
      | none => simp
      | some p =>
        have hplt := hpar i hi p hp
        simp only [hidx p hplt]
        rw [if_pos (by positivity)]
        rw [Int.toNat_natCast]
    · apply List.filter_congr
      intro j hj
      have hjlt : j < tr.nodes.length := List.mem_range.mp hj
      simp only [hreadPar j hjlt]
      cases hq : (tr.nodes.getD j default).parent with
      | none =>
        simp only
        have h1 : ¬ ((-1 : Int) = (i : Int)) := by omega
        simp [h1]
      | some p =>
        have hplt := hpar j hjlt p hq
        simp only [hidx p hplt]
        rw [decide_eq_decide]
        constructor
        · intro h
          have : p = i := by exact_mod_cast h
          rw [this]
        · intro h
          have : p = i := by injection h
          exact_mod_cast this
  · intro l p
    rw [hleaves]
    constructor
    · intro hmem
      obtain ⟨j, hj, hjeq⟩ := List.mem_map.mp hmem
      obtain ⟨hjr, hjpos⟩ := List.mem_filter.mp hj
      have hjlt : j < tr.nodes.length := List.mem_range.mp hjr
      injection hjeq with h1 h2
      subst h1
      subst h2
      refine ⟨hjlt, (hreadLab j hjlt).symm, ?_⟩
      simpa using hjpos
    · intro ⟨hp, hl, hpos⟩
      apply List.mem_map.mpr
      refine ⟨p, List.mem_filter.mpr ⟨List.mem_range.mpr hp, ?_⟩, ?_⟩
      · rw [hreadLab p hp, hl]
        simpa using hpos
      · rw [hreadLab p hp, hl]

/-- Witness for tree_save_load_roundtrip at the 7-node binary example
tree. -/
theorem tree_save_load_roundtrip_witness :
    (∀ i, i < exampleTree.nodes.length →
      (exampleTree.nodes.getD i default).index = (i : Int)) ∧
    (exampleTree.root < exampleTree.nodes.length) ∧
    ((loadTree (saveTree exampleTree)).k = exampleTree.k ∧
    (loadTree (saveTree exampleTree)).nodes.length = exampleTree.nodes.length ∧
    (loadTree (saveTree exampleTree)).root = exampleTree.root ∧
    (∀ i, i < exampleTree.nodes.length →
      ((loadTree (saveTree exampleTree)).nodes.getD i default).index =
        (exampleTree.nodes.getD i default).index ∧
      ((loadTree (saveTree exampleTree)).nodes.getD i default).label =
        (exampleTree.nodes.getD i default).label ∧
      ((loadTree (saveTree exampleTree)).nodes.getD i default).parent =
        (exampleTree.nodes.getD i default).parent ∧
      ((loadTree (saveTree exampleTree)).nodes.getD i default).children =
        (List.range exampleTree.nodes.length).filter
          (fun j => (exampleTree.nodes.getD j default).parent = some i)) ∧
    (∀ l p, (l, p) ∈ (loadTree (saveTree exampleTree)).leaves ↔
      p < exampleTree.nodes.length ∧
        (exampleTree.nodes.getD p default).label = l ∧ 0 ≤ l)) :=
  ⟨by decide, by decide,
    tree_save_load_roundtrip exampleTree (by decide) (by decide)
      (by
        intro i hi p hp
        have hi7 : i < 7 := hi
        interval_cases i <;> simp [exampleTree] at hp <;> omega)⟩

theorem lossCode_decode (lt : LossType) : lossDecode (lossCode lt) = lt := by
  cases lt <;> rfl

theorem range_map_getD_pairs (l : List (Nat × ℚ)) :
    (List.range l.length).map (fun j => l.getD j (0, 0)) = l := by
  apply List.ext_getElem?
  intro i
  by_cases h : i < l.length
  · simp [List.getElem?_map, List.getElem?_range, h, List.getD_eq_getElem?_getD,
      List.getElem?_eq_getElem h]
  · have h1 : l.length ≤ i := Nat.le_of_not_lt h
    rw [List.getElem?_map,
      List.getElem?_eq_none (show (List.range l.length).length ≤ i by simpa using h1),
      List.getElem?_eq_none h1]
    rfl

theorem vecSave_length (v : VecM) :
    (vecSave v).length = 1 + 2 * v.entries.length := by
  show ((v.entries.map (fun e => [Tok.i (e.1 : Int), Tok.q e.2])).flatten).length + 1 =
    1 + 2 * v.entries.length
  rw [flatten_pairs_length]
  omega

theorem vecSave_getD_pair (v : VecM) (j : Nat) (hj : j < v.entries.length)
    (d : Tok) :
    (vecSave v).getD (1 + 2 * j) d = .i ((v.entries.getD j (0, 0)).1 : Int) ∧
    (vecSave v).getD (2 + 2 * j) d = .q (v.entries.getD j (0, 0)).2 := by
  constructor
  · rw [show 1 + 2 * j = (2 * j) + 1 by omega]
    show (Tok.i _ :: _).getD _ _ = _
    rw [List.getD_cons_succ]
    exact (flatten_pairs_getD (fun e => Tok.i (e.1 : Int)) (fun e => Tok.q e.2)
      v.entries j hj (0, 0) d).1
  · rw [show 2 + 2 * j = (2 * j + 1) + 1 by omega]
    show (Tok.i _ :: _).getD _ _ = _
    rw [List.getD_cons_succ]
    exact (flatten_pairs_getD (fun e => Tok.i (e.1 : Int)) (fun e => Tok.q e.2)
      v.entries j hj (0, 0) d).2

theorem vecLoad_seg (s : List Tok) (v : VecM) (o : Nat)
    (hseg : ∀ m, m < (vecSave v).length → s[o + m]? = (vecSave v)[m]?) :
    vecLoadEntries s o = v.entries ∧ vecBlobLen s o = (vecSave v).length := by
  have hlen : (vecSave v).length = 1 + 2 * v.entries.length := vecSave_length v
  have hgetD : ∀ m, m < (vecSave v).length → ∀ d : Tok,
      s.getD (o + m) d = (vecSave v).getD m d := by
    intro m hm d
    rw [List.getD_eq_getElem?_getD, List.getD_eq_getElem?_getD, hseg m hm]
  have hhead : s.getD o (.i 0) = .i (v.entries.length : Int) := by
    have h0 := hgetD 0 (by omega) (.i 0)
    rw [Nat.add_zero] at h0
    rw [h0]
    rfl
  have hlendec : ((s.getD o (.i 0)).toInt).toNat = v.entries.length := by
    rw [hhead]
    simp [Tok.toInt]
  refine ⟨?_, ?_⟩
  · unfold vecLoadEntries
    rw [hlendec]
    have hpt : ∀ j ∈ List.range v.entries.length,
        ((((s.getD (o + 1 + 2 * j) (.i 0)).toInt).toNat,
          (s.getD (o + 2 + 2 * j) (.q 0)).toRat) : Nat × ℚ) =
          v.entries.getD j (0, 0) := by
      intro j hjr
      have hj : j < v.entries.length := List.mem_range.mp hjr
      have h1 := hgetD (1 + 2 * j) (by omega) (.i 0)
      have h2 := hgetD (2 + 2 * j) (by omega) (.q 0)
      rw [show o + (1 + 2 * j) = o + 1 + 2 * j by omega] at h1
      rw [show o + (2 + 2 * j) = o + 2 + 2 * j by omega] at h2
      rw [h1, h2, (vecSave_getD_pair v j hj _).1, (vecSave_getD_pair v j hj _).2]
      simp [Tok.toInt, Tok.toRat]
    rw [List.map_congr_left hpt]
    exact range_map_getD_pairs v.entries
  · unfold vecBlobLen
    rw [hlendec, hlen]

/-- C8: Base::save (base.cpp:317-334) followed by Base::load (base.cpp:336-379)
round-trips: classCount, firstClass and lossType always; the logical values of
W whenever `classCount > 1` (whatever representation the loader selects from
the estimators and `loadAs`); the logical values of G whenever gradients were
saved and their loading was requested; and when `classCount ≤ 1` nothing
beyond the three header fields is written or read (stream length 3, final read
offset 3, W and G of the loading Base untouched).  The estimators
`Vector::estimateMem` / `MapVector::estimateMem` (outside src/) are universally
quantified. -/
theorem base_save_load_roundtrip (denseEst mapEst : Int → Int → Int)
    (b b0 : BaseM) (saveGrads loadGrads : Bool) (loadAs : RepresentationType) :
    (loadBase denseEst mapEst b0 (saveBase b saveGrads) loadGrads loadAs).1.classCount =
      b.classCount ∧
    (loadBase denseEst mapEst b0 (saveBase b saveGrads) loadGrads loadAs).1.firstClass =
      b.firstClass ∧
    (loadBase denseEst mapEst b0 (saveBase b saveGrads) loadGrads loadAs).1.lossType =
      b.lossType ∧
    (1 < b.classCount → ∀ w, b.W = some w →
      ∃ w', (loadBase denseEst mapEst b0 (saveBase b saveGrads) loadGrads loadAs).1.W =
        some w' ∧ w'.entries = w.entries) ∧
    (1 < b.classCount → saveGrads = true → loadGrads = true → ∀ g, b.G = some g →
      ∃ g', (loadBase denseEst mapEst b0 (saveBase b saveGrads) loadGrads loadAs).1.G =
        some g' ∧ g'.entries = g.entries) ∧
    (¬ 1 < b.classCount →
      (saveBase b saveGrads).length = 3 ∧
      (loadBase denseEst mapEst b0 (saveBase b saveGrads) loadGrads loadAs).2 = 3 ∧
      (loadBase denseEst mapEst b0 (saveBase b saveGrads) loadGrads loadAs).1.W = b0.W ∧
      (loadBase denseEst mapEst b0 (saveBase b saveGrads) loadGrads loadAs).1.G = b0.G) := by
  by_cases hcc : 1 < b.classCount
  · -- full case: header, size, nonZero, W blob, grads flag, optional G blob
    have hsB : saveBase b saveGrads =
        .i b.classCount :: .i b.firstClass :: .i (lossCode b.lossType) ::
          .i (vecSize (b.W.getD emptyVec)) :: .i (vecNonZero (b.W.getD emptyVec)) ::
          (vecSave (b.W.getD emptyVec) ++
            (.b (saveGrads && !(b.G = none)) ::
              (if (saveGrads && !(b.G = none)) then vecSave (b.G.getD emptyVec) else []))) := by
      simp [saveBase, hcc]
    have hr0 : (saveBase b saveGrads).getD 0 (.i 0) = .i b.classCount := by
      rw [hsB]; rfl
    have hr1 : (saveBase b saveGrads).getD 1 (.i 0) = .i b.firstClass := by
      rw [hsB]; rfl
    have hr2 : (saveBase b saveGrads).getD 2 (.i 0) = .i (lossCode b.lossType) := by
      rw [hsB]; rfl
    have hseg : ∀ m, m < (vecSave (b.W.getD emptyVec)).length →
        (saveBase b saveGrads)[5 + m]? = (vecSave (b.W.getD emptyVec))[m]? := by
      intro m hm
      rw [hsB]
      rw [show 5 + m = m + 1 + 1 + 1 + 1 + 1 by omega]
      simp only [List.getElem?_cons_succ]
      exact List.getElem?_append_left hm
    have hblob := vecLoad_seg (saveBase b saveGrads) (b.W.getD emptyVec) 5 hseg
    have hflag : (saveBase b saveGrads).getD
        (5 + (vecSave (b.W.getD emptyVec)).length) (.b false) =
        .b (saveGrads && !(b.G = none)) := by
      rw [hsB, List.getD_eq_getElem?_getD]
      rw [show 5 + (vecSave (b.W.getD emptyVec)).length =
        ((vecSave (b.W.getD emptyVec)).length + 1 + 1 + 1 + 1) + 1 by omega]
      simp only [List.getElem?_cons_succ]
      rw [List.getElem?_append_right (by omega)]
      simp
    refine ⟨?_, ?_, ?_, ?_, ?_, fun h => absurd hcc h⟩
    · simp only [loadBase, hr0, hr1, hr2, Tok.toInt]
      rw [if_pos hcc]
      split <;> split <;> rfl
    · -- firstClass: need to evaluate through the classCount > 1 branch
      simp only [loadBase, hr0, hr1, hr2, Tok.toInt]
      rw [if_pos hcc]
      split <;> split <;> rfl
    · simp only [loadBase, hr0, hr1, hr2, Tok.toInt]
      rw [if_pos hcc]
      rw [lossCode_decode]
      split <;> split <;> rfl
    · intro _ w hw
      simp only [loadBase, hr0, hr1, hr2, Tok.toInt]
      rw [if_pos hcc]
      rw [hblob.2]
      split
      · split
        · exact ⟨_, rfl, by rw [hblob.1, hw]; rfl⟩
        · exact ⟨_, rfl, by rw [hblob.1, hw]; rfl⟩
      · exact ⟨_, rfl, by rw [hblob.1, hw]; rfl⟩
    · intro _ hsg hlg g hg
      have hgr : (saveGrads && !(b.G = none)) = true := by
        rw [hsg, hg]
        simp
      have hsegG : ∀ m, m < (vecSave (b.G.getD emptyVec)).length →
          (saveBase b saveGrads)[5 + (vecSave (b.W.getD emptyVec)).length + 1 + m]? =
            (vecSave (b.G.getD emptyVec))[m]? := by
        intro m hm
        rw [hsB]
        rw [show 5 + (vecSave (b.W.getD emptyVec)).length + 1 + m =
          ((vecSave (b.W.getD emptyVec)).length + 1 + m + 1 + 1 + 1 + 1) + 1 by omega]
        simp only [List.getElem?_cons_succ]
        rw [List.getElem?_append_right (by omega)]
        rw [show (vecSave (b.W.getD emptyVec)).length + 1 + m -
          (vecSave (b.W.getD emptyVec)).length = m + 1 by omega]
        rw [List.getElem?_cons_succ, hgr]
        rw [if_pos rfl]
      have hblobG := vecLoad_seg (saveBase b saveGrads)
        (b.G.getD emptyVec) (5 + (vecSave (b.W.getD emptyVec)).length + 1) hsegG
      simp only [loadBase, hr0, hr1, hr2, Tok.toInt]
      rw [if_pos hcc]
      rw [hblob.2, hflag, hgr]
      simp only [Tok.asBool, hlg, if_true]
      exact ⟨_, rfl, by rw [hblobG.1, hg]; rfl⟩
  · -- degenerate case: three header tokens only
    have hsB : saveBase b saveGrads =
        [.i b.classCount, .i b.firstClass, .i (lossCode b.lossType)] := by
      simp [saveBase, hcc]
    have hload : loadBase denseEst mapEst b0 (saveBase b saveGrads) loadGrads loadAs =
        ({ b0 with classCount := b.classCount, firstClass := b.firstClass,
                   lossType := b.lossType }, 3) := by
      rw [hsB]
      simp only [loadBase, List.getD_cons_zero, List.getD_cons_succ, Tok.toInt]
      rw [if_neg hcc]
      rw [lossCode_decode]
    rw [hload]
    refine ⟨rfl, rfl, rfl, fun h => absurd h hcc, fun h => absurd h hcc, fun _ => ?_⟩
    refine ⟨by rw [hsB]; rfl, rfl, rfl, rfl⟩

/-- Witness for base_save_load_roundtrip: a two-class Base with dense W and G
round-trips its logical W and G entries through save and load. -/
theorem base_save_load_roundtrip_witness :
    (∃ w', (loadBase (fun s _ => s) (fun _ n => n) baseCtor
        (saveBase exampleBase true) true .dense).1.W = some w' ∧
      w'.entries = [(1, 5), (3, -2)]) ∧
    (∃ g', (loadBase (fun s _ => s) (fun _ n => n) baseCtor
        (saveBase exampleBase true) true .dense).1.G = some g' ∧
      g'.entries = [(2, 7)]) :=
  ⟨(base_save_load_roundtrip (fun s _ => s) (fun _ n => n) exampleBase baseCtor
      true true .dense).2.2.2.1 (by decide)
      { rep := .dense, entries := [(1, 5), (3, -2)] } rfl,
   (base_save_load_roundtrip (fun s _ => s) (fun _ n => n) exampleBase baseCtor
      true true .dense).2.2.2.2.1 (by decide) rfl rfl
      { rep := .dense, entries := [(2, 7)] } rfl⟩

section AssignmentLemmas

variable {t : Nat} {parent : Nat → Option Nat} {children : Nat → List Nat}
variable {root : Nat} {depth : Nat → Nat}

theorem parentIter_lt (hvt : ValidTree t parent children root depth) :
    ∀ j n m, n < t → parentIter parent j n = some m → m < t := by
  intro j
  induction j with
  | zero =>
    intro n m hn h
    cases h
    exact hn
  | succ j ih =>
    intro n m hn h
    cases hp : parent n with
    | none => simp [parentIter, hp] at h
    | some p =>
      simp only [parentIter, hp, Option.bind_some] at h
      exact ih p m (hvt.parent_mem n hn p hp) h

theorem parentIter_add_one (j n m : Nat)
    (h : parentIter parent j n = some m) :
    parentIter parent (j + 1) n = parent m := by
  induction j generalizing n with
  | zero =>
    cases h
    show (parent m).bind (parentIter parent 0) = parent m
    cases parent m <;> rfl
  | succ j ih =>
    cases hp : parent n with
    | none => simp [parentIter, hp] at h
    | some p =>
      simp only [parentIter, hp, Option.bind_some] at h ⊢
      exact ih p h

theorem walkUp_self (fuel n : Nat) : n ∈ walkUp parent fuel n := by
  cases fuel <;> simp [walkUp]

theorem walkUp_sound :
    ∀ fuel n m, m ∈ walkUp parent fuel n →
      ∃ j, parentIter parent j n = some m := by
  intro fuel
  induction fuel with
  | zero =>
    intro n m hm
    simp [walkUp] at hm
    exact ⟨0, by rw [hm]; rfl⟩
  | succ fuel ih =>
    intro n m hm
    simp only [walkUp] at hm
    rcases List.mem_cons.mp hm with h | h
    · exact ⟨0, by rw [h]; rfl⟩
    · cases hp : parent n with
      | none => rw [hp] at h; simp at h
      | some p =>
        rw [hp] at h
        obtain ⟨j, hj⟩ := ih p m h
        exact ⟨j + 1, by simp [parentIter, hp, Option.bind_some, hj]⟩

theorem walkUp_complete (hvt : ValidTree t parent children root depth) :
    ∀ j fuel n m, n < t → depth n ≤ fuel →
      parentIter parent j n = some m → m ∈ walkUp parent fuel n := by
  intro j
  induction j with
  | zero =>
    intro fuel n m _ _ h
    cases h
    exact walkUp_self _ _
  | succ j ih =>
    intro fuel n m hn hfuel h
    cases hp : parent n with
    | none => simp [parentIter, hp] at h
    | some p =>
      simp only [parentIter, hp, Option.bind_some] at h
      have hdp : depth n = depth p + 1 := hvt.depth_parent n hn p hp
      have hplt : p < t := hvt.parent_mem n hn p hp
      cases fuel with
      | zero => omega
      | succ f =>
        have hm : m ∈ walkUp parent f p := ih f p m hplt (by omega) h
        simp [walkUp, hp, hm]

theorem parentIter_root (hvt : ValidTree t parent children root depth) :
    ∀ d n, n < t → depth n = d → parentIter parent d n = some root := by
  intro d
  induction d using Nat.strong_induction_on with
  | _ d ih =>
    intro n hn hd
    cases hp : parent n with
    | none =>
      have hroot : n = root := hvt.root_uniq n hn hp
      subst hroot
      have h0 : d = 0 := by rw [← hd, hvt.depth_root]
      subst h0
      rfl
    | some p =>
      have hdp : depth n = depth p + 1 := hvt.depth_parent n hn p hp
      have hplt : p < t := hvt.parent_mem n hn p hp
      subst hd
      rw [hdp]
      simp only [parentIter, hp, Option.bind_some]
      exact ih (depth p) (by omega) p hplt rfl

theorem foldl_union_mem (g : Nat → Finset Nat) :
    ∀ (Y : List Nat) (init : Finset Nat) (m : Nat),
      m ∈ Y.foldl (fun acc y => acc ∪ g y) init ↔ m ∈ init ∨ ∃ y ∈ Y, m ∈ g y := by
  intro Y
  induction Y with
  | nil => simp
  | cons y ys ih =>
    intro init m
    simp only [List.foldl_cons, ih, Finset.mem_union, List.mem_cons]
    constructor
    · rintro ((h | h) | ⟨z, hz, hm⟩)
      · exact Or.inl h
      · exact Or.inr ⟨y, Or.inl rfl, h⟩
      · exact Or.inr ⟨z, Or.inr hz, hm⟩
    · rintro (h | ⟨z, (rfl | hz), hm⟩)
      · exact Or.inl (Or.inl h)
      · exact Or.inl (Or.inr hm)
      · exact Or.inr ⟨z, hz, hm⟩

theorem positiveSet_iff (hvt : ValidTree t parent children root depth)
    (leafOf : Nat → Nat) (Y : List Nat) (hY : ∀ y ∈ Y, leafOf y < t) (m : Nat) :
    m ∈ positiveSet parent leafOf t Y ↔
      ∃ y ∈ Y, ∃ j, parentIter parent j (leafOf y) = some m := by
  unfold positiveSet
  rw [foldl_union_mem]
  simp only [Finset.not_mem_empty, false_or, List.mem_toFinset]
  constructor
  · rintro ⟨y, hy, hm⟩
    exact ⟨y, hy, walkUp_sound t (leafOf y) m hm⟩
  · rintro ⟨y, hy, j, hj⟩
    refine ⟨y, hy, ?_⟩
    exact walkUp_complete hvt j t (leafOf y) m (hY y hy)
      (le_of_lt (hvt.depth_lt (leafOf y) (hY y hy))) hj

theorem negQueue_spec (hvt : ValidTree t parent children root depth)
    (P : Finset Nat)
    (hPsub : ∀ m ∈ P, m < t)
    (hPclosed : ∀ m ∈ P, ∀ p, parent m = some p → p ∈ P) :
    ∀ (fuel : Nat) (queue : List Nat) (E acc : Finset Nat),
      queue.Nodup →
      (∀ n ∈ queue, n ∈ P) →
      (∀ e ∈ E, e ∈ P) →
      (∀ n ∈ queue, n ∉ E) →
      (∀ c ∈ P, (c ∈ queue ∨ c ∈ E) ↔
        (c = root ∨ ∃ p, parent c = some p ∧ p ∈ E)) →
      (P \ E).card ≤ fuel →
      ∀ m, m ∈ negQueue children P fuel queue acc ↔
        m ∈ acc ∨ ∃ p, p ∈ P ∧ p ∉ E ∧ m ∈ children p ∧ m ∉ P := by
  have hfinal : ∀ (E acc : Finset Nat), P \ E = ∅ → ∀ m,
      m ∈ acc ↔ m ∈ acc ∨ ∃ p, p ∈ P ∧ p ∉ E ∧ m ∈ children p ∧ m ∉ P := by
    intro E acc hempty m
    constructor
    · exact Or.inl
    · rintro (hm | ⟨p, hpP, hpE, _, _⟩)
      · exact hm
      · exfalso
        have hmem : p ∈ P \ E := Finset.mem_sdiff.mpr ⟨hpP, hpE⟩
        rw [hempty] at hmem
        exact absurd hmem (Finset.not_mem_empty p)
  have hstuck : ∀ (E : Finset Nat),
      (∀ e ∈ E, e ∈ P) →
      (∀ c ∈ P, (c ∈ ([] : List Nat) ∨ c ∈ E) ↔
        (c = root ∨ ∃ p, parent c = some p ∧ p ∈ E)) →
      P \ E = ∅ := by
    intro E hE hiff
    by_contra hne
    obtain ⟨c0, hc0, hmin⟩ := Finset.exists_min_image (P \ E) depth
      (Finset.nonempty_iff_ne_empty.mpr hne)
    obtain ⟨hc0P, hc0E⟩ := Finset.mem_sdiff.mp hc0
    have hRHS : ¬ (c0 = root ∨ ∃ p, parent c0 = some p ∧ p ∈ E) := by
      intro hr
      have := (hiff c0 hc0P).mpr hr
      simp [hc0E] at this
    have hc0root : c0 ≠ root := fun he => hRHS (Or.inl he)
    have hc0lt : c0 < t := hPsub c0 hc0P
    cases hp : parent c0 with
    | none => exact hc0root (hvt.root_uniq c0 hc0lt hp)
    | some p =>
      have hpP : p ∈ P := hPclosed c0 hc0P p hp
      have hpE : p ∉ E := fun hpe => hRHS (Or.inr ⟨p, hp, hpe⟩)
      have hple := hmin p (Finset.mem_sdiff.mpr ⟨hpP, hpE⟩)
      have hdp : depth c0 = depth p + 1 := hvt.depth_parent c0 hc0lt p hp
      omega
  intro fuel
  induction fuel with
  | zero =>
    intro queue E acc hq1 hq2 hE hdisj hiff hfuel m
    have hempty : P \ E = ∅ := Finset.card_eq_zero.mp (Nat.le_zero.mp hfuel)
    exact hfinal E acc hempty m
  | succ fuel ih =>
    intro queue E acc hq1 hq2 hE hdisj hiff hfuel m
    cases queue with
    | nil =>
      have hempty : P \ E = ∅ := hstuck E hE hiff
      exact hfinal E acc hempty m
    | cons n q =>
      have hnP : n ∈ P := hq2 n (List.mem_cons_self n q)
      have hnlt : n < t := hPsub n hnP
      have hnE : n ∉ E := hdisj n (List.mem_cons_self n q)
      have hnq : n ∉ q := (List.nodup_cons.mp hq1).1
      have hqnd : q.Nodup := (List.nodup_cons.mp hq1).2
      have hchlt : ∀ c ∈ children n, c < t := hvt.children_mem n hnlt
      have hchpar : ∀ c ∈ children n, parent c = some n := by
        intro c hc
        exact (hvt.children_iff n hnlt c (hchlt c hc)).mp hc
      have hcn : ∀ c ∈ children n, c ≠ n := by
        intro c hc he
        have h1 := hchpar c hc
        rw [he] at h1
        have h2 := hvt.depth_parent n hnlt n h1
        omega
      have hchNew : ∀ c, c ∈ children n → c ∈ P → c ∉ E ∧ c ∉ n :: q := by
        intro c hc hcP
        have hcroot : c ≠ root := by
          intro he
          have h1 := hchpar c hc
          rw [he, hvt.parent_root] at h1
          cases h1
        have hRHSfalse : ¬ (c = root ∨ ∃ p', parent c = some p' ∧ p' ∈ E) := by
          rintro (he | ⟨p', hp', hp'E⟩)
          · exact hcroot he
          · rw [hchpar c hc] at hp'
            injection hp' with hpn
            rw [← hpn] at hp'E
            exact hnE hp'E
        have hLHSfalse : ¬ (c ∈ n :: q ∨ c ∈ E) :=
          fun hl => hRHSfalse ((hiff c hcP).mp hl)
        exact ⟨fun hcE => hLHSfalse (Or.inr hcE),
               fun hcq => hLHSfalse (Or.inl hcq)⟩
      have hstep : negQueue children P (fuel + 1) (n :: q) acc =
          negQueue children P fuel (q ++ (children n).filter (· ∈ P))
            (acc ∪ ((children n).filter (· ∉ P)).toFinset) := rfl
      rw [hstep]
      have hmemfilterP : ∀ c, c ∈ (children n).filter (· ∈ P) ↔
          c ∈ children n ∧ c ∈ P := by
        intro c
        simp [List.mem_filter]
      have inv1 : (q ++ (children n).filter (· ∈ P)).Nodup := by
        refine List.Nodup.append hqnd ((hvt.children_nodup n hnlt).filter _) ?_
        intro a ha hb
        obtain ⟨hach, haP⟩ := (hmemfilterP a).mp hb
        exact (hchNew a hach haP).2 (List.mem_cons_of_mem n ha)
      have inv2 : ∀ x ∈ q ++ (children n).filter (· ∈ P), x ∈ P := by
        intro x hx
        rcases List.mem_append.mp hx with hx | hx
        · exact hq2 x (List.mem_cons_of_mem n hx)
        · exact ((hmemfilterP x).mp hx).2
      have inv3 : ∀ e ∈ insert n E, e ∈ P := by
        intro e he
        rcases Finset.mem_insert.mp he with he | he
        · rw [he]; exact hnP
        · exact hE e he
      have inv4 : ∀ x ∈ q ++ (children n).filter (· ∈ P), x ∉ insert n E := by
        intro x hx hxE
        rcases List.mem_append.mp hx with hx | hx
        · rcases Finset.mem_insert.mp hxE with he | he
          · rw [he] at hx; exact hnq hx
          · exact hdisj x (List.mem_cons_of_mem n hx) he
        · obtain ⟨hxch, hxP⟩ := (hmemfilterP x).mp hx
          rcases Finset.mem_insert.mp hxE with he | he
          · exact hcn x hxch he
          · exact (hchNew x hxch hxP).1 he
      have inv5 : ∀ c ∈ P,
          (c ∈ q ++ (children n).filter (· ∈ P) ∨ c ∈ insert n E) ↔
          (c = root ∨ ∃ p, parent c = some p ∧ p ∈ insert n E) := by
        intro c hcP
        by_cases hceqn : c = n
        · subst hceqn
          constructor
          · intro _
            rcases (hiff c hcP).mp (Or.inl (List.mem_cons_self c q)) with h | ⟨p, hp1, hp2⟩
            · exact Or.inl h
            · exact Or.inr ⟨p, hp1, Finset.mem_insert_of_mem hp2⟩
          · intro _
            exact Or.inr (Finset.mem_insert_self c E)
        · by_cases hpc : parent c = some n
          · constructor
            · intro _
              exact Or.inr ⟨n, hpc, Finset.mem_insert_self n E⟩
            · intro _
              have hclt : c < t := hPsub c hcP
              have hcch : c ∈ children n := (hvt.children_iff n hnlt c hclt).mpr hpc
              exact Or.inl (List.mem_append.mpr
                (Or.inr ((hmemfilterP c).mpr ⟨hcch, hcP⟩)))
          · have hfilterno : c ∉ (children n).filter (· ∈ P) := by
              intro hcf
              exact hpc (hchpar c ((hmemfilterP c).mp hcf).1)
            constructor
            · intro hl
              have horig : c ∈ n :: q ∨ c ∈ E := by
                rcases hl with hl | hl
                · rcases List.mem_append.mp hl with hl | hl
                  · exact Or.inl (List.mem_cons_of_mem n hl)
                  · exact absurd hl hfilterno
                · rcases Finset.mem_insert.mp hl with he | he
                  · exact absurd he hceqn
                  · exact Or.inr he
              rcases (hiff c hcP).mp horig with h | ⟨p, hp1, hp2⟩
              · exact Or.inl h
              · exact Or.inr ⟨p, hp1, Finset.mem_insert_of_mem hp2⟩
            · intro hr
              have hrE : c = root ∨ ∃ p, parent c = some p ∧ p ∈ E := by
                rcases hr with h | ⟨p, hp1, hp2⟩
                · exact Or.inl h
                · rcases Finset.mem_insert.mp hp2 with he | he
                  · rw [he] at hp1
                    exact absurd hp1 hpc
                  · exact Or.inr ⟨p, hp1, he⟩
              rcases (hiff c hcP).mpr hrE with hl | hl
              · rcases List.mem_cons.mp hl with he | he
                · exact absurd he hceqn
                · exact Or.inl (List.mem_append.mpr (Or.inl he))
              · exact Or.inr (Finset.mem_insert_of_mem hl)
      have inv6 : (P \ insert n E).card ≤ fuel := by
        have hnsd : n ∈ P \ E := Finset.mem_sdiff.mpr ⟨hnP, hnE⟩
        have h1 : P \ insert n E = (P \ E).erase n := by
          ext x
          simp only [Finset.mem_sdiff, Finset.mem_insert, Finset.mem_erase]
          tauto
        rw [h1, Finset.card_erase_of_mem hnsd]
        have h2 : 1 ≤ (P \ E).card := Finset.card_pos.mpr ⟨n, hnsd⟩
        omega
      rw [ih (q ++ (children n).filter (· ∈ P)) (insert n E)
        (acc ∪ ((children n).filter (· ∉ P)).toFinset)
        inv1 inv2 inv3 inv4 inv5 inv6 m]
      have hmemfilterN : ∀ c, c ∈ (children n).filter (· ∉ P) ↔
          c ∈ children n ∧ c ∉ P := by
        intro c
        simp [List.mem_filter]
      constructor
      · rintro (hm | ⟨p, hpP, hpE, hmch, hmP⟩)
        · rcases Finset.mem_union.mp hm with hm | hm
          · exact Or.inl hm
          · obtain ⟨hmch, hmP⟩ := (hmemfilterN m).mp (List.mem_toFinset.mp hm)
            exact Or.inr ⟨n, hnP, hnE, hmch, hmP⟩
        · exact Or.inr ⟨p, hpP, fun hpe => hpE (Finset.mem_insert_of_mem hpe),
            hmch, hmP⟩
      · rintro (hm | ⟨p, hpP, hpE, hmch, hmP⟩)
        · exact Or.inl (Finset.mem_union.mpr (Or.inl hm))
        · by_cases hpn : p = n
          · subst hpn
            exact Or.inl (Finset.mem_union.mpr (Or.inr
              (List.mem_toFinset.mpr ((hmemfilterN m).mpr ⟨hmch, hmP⟩))))
          · refine Or.inr ⟨p, hpP, ?_, hmch, hmP⟩
            intro hpe
            rcases Finset.mem_insert.mp hpe with he | he
            · exact hpn he
            · exact hpE he

end AssignmentLemmas

/-- C5: the per-row assignment of PLTree::train (pltree.cpp:72-117).  For a
valid tree and a row with label set Y (all labels mapped to in-range leaves):
when Y is empty, P = ∅ and N = {root}; when Y is nonempty, P is exactly the
set of nodes on the leaf-to-root paths of Y's labels (iterated-parent
characterization) and N is exactly the set of children of nodes of P that are
not themselves in P; the row reaches node n's bucket with binary label 1
exactly when n ∈ P and with binary label 0 exactly when n ∈ N. -/
theorem row_assignment_correct (t : Nat) (parent : Nat → Option Nat)
    (children : Nat → List Nat) (root : Nat) (depth : Nat → Nat)
    (leafOf : Nat → Nat) (Y : List Nat)
    (hvt : ValidTree t parent children root depth)
    (hY : ∀ y ∈ Y, leafOf y < t) :
    (Y = [] → rowAssignment t parent children root leafOf Y = (∅, {root})) ∧
    (Y ≠ [] →
      (∀ m, m ∈ (rowAssignment t parent children root leafOf Y).1 ↔
        ∃ y ∈ Y, ∃ j, parentIter parent j (leafOf y) = some m) ∧
      (∀ m, m ∈ (rowAssignment t parent children root leafOf Y).2 ↔
        ∃ p, p ∈ (rowAssignment t parent children root leafOf Y).1 ∧
          m ∈ children p ∧ m ∉ (rowAssignment t parent children root leafOf Y).1)) ∧
    (∀ n, (rowBinLabel t parent children root leafOf Y n = some 1 ↔
        n ∈ (rowAssignment t parent children root leafOf Y).1) ∧
      (rowBinLabel t parent children root leafOf Y n = some 0 ↔
        n ∈ (rowAssignment t parent children root leafOf Y).2)) := by
  by_cases hYe : Y = []
  · subst hYe
    refine ⟨fun _ => rfl, fun h => absurd rfl h, ?_⟩
    intro n
    have hra : rowAssignment t parent children root leafOf [] = (∅, {root}) := rfl
    constructor
    · simp only [rowBinLabel, hra]
      by_cases h2 : n ∈ ({root} : Finset Nat)
      · simp [h2]
      · simp [h2]
    · simp only [rowBinLabel, hra]
      by_cases h2 : n ∈ ({root} : Finset Nat)
      · simp [h2]
      · simp [h2]
  · have hre : Y.isEmpty = false := by
      cases Y with
      | nil => exact absurd rfl hYe
      | cons a l => rfl
    have hra : rowAssignment t parent children root leafOf Y =
        (positiveSet parent leafOf t Y,
         negQueue children (positiveSet parent leafOf t Y) (t + 1) [root] ∅) := by
      unfold rowAssignment
      rw [hre]
      rfl
    have hPiff := positiveSet_iff hvt leafOf Y hY
    have hPsub : ∀ m ∈ positiveSet parent leafOf t Y, m < t := by
      intro m hm
      obtain ⟨y, hy, j, hj⟩ := (hPiff m).mp hm
      exact parentIter_lt hvt j (leafOf y) m (hY y hy) hj
    have hPclosed : ∀ m ∈ positiveSet parent leafOf t Y, ∀ p,
        parent m = some p → p ∈ positiveSet parent leafOf t Y := by
      intro m hm p hp
      obtain ⟨y, hy, j, hj⟩ := (hPiff m).mp hm
      refine (hPiff p).mpr ⟨y, hy, j + 1, ?_⟩
      rw [parentIter_add_one j (leafOf y) m hj, hp]
    have hProot : root ∈ positiveSet parent leafOf t Y := by
      cases Y with
      | nil => exact absurd rfl hYe
      | cons y ys =>
        refine (hPiff root).mpr ⟨y, List.mem_cons_self y ys, depth (leafOf y), ?_⟩
        exact parentIter_root hvt (depth (leafOf y)) (leafOf y)
          (hY y (List.mem_cons_self y ys)) rfl
    have hPcard : (positiveSet parent leafOf t Y).card ≤ t := by
      have hsub : positiveSet parent leafOf t Y ⊆ Finset.range t := by
        intro m hm
        exact Finset.mem_range.mpr (hPsub m hm)
      have := Finset.card_le_card hsub
      simpa using this
    have hNiff : ∀ m, m ∈ negQueue children (positiveSet parent leafOf t Y)
        (t + 1) [root] ∅ ↔
        ∃ p, p ∈ positiveSet parent leafOf t Y ∧ m ∈ children p ∧
          m ∉ positiveSet parent leafOf t Y := by
      intro m
      have h := negQueue_spec hvt (positiveSet parent leafOf t Y) hPsub hPclosed
        (t + 1) [root] ∅ ∅ (by simp) (by simpa using hProot) (by simp)
        (by simp)
        (by intro c hc; simp)
        (by rw [Finset.sdiff_empty]; omega) m
      rw [h]
      constructor
      · rintro (hm | ⟨p, hp1, _, hp3, hp4⟩)
        · exact absurd hm (Finset.not_mem_empty m)
        · exact ⟨p, hp1, hp3, hp4⟩
      · rintro ⟨p, hp1, hp3, hp4⟩
        exact Or.inr ⟨p, hp1, Finset.not_mem_empty p, hp3, hp4⟩
    refine ⟨fun h => absurd h hYe, fun _ => ⟨?_, ?_⟩, ?_⟩
    · intro m
      rw [hra]
      exact hPiff m
    · intro m
      rw [hra]
      exact hNiff m
    · intro n
      have hdisjPN : n ∈ (rowAssignment t parent children root leafOf Y).2 →
          n ∉ (rowAssignment t parent children root leafOf Y).1 := by
        rw [hra]
        intro hn
        obtain ⟨p, _, _, hp4⟩ := (hNiff n).mp hn
        exact hp4
      constructor
      · unfold rowBinLabel
        by_cases h1 : n ∈ (rowAssignment t parent children root leafOf Y).1
        · simp [h1]
        · by_cases h2 : n ∈ (rowAssignment t parent children root leafOf Y).2
          · simp only [h1, h2]
            simp
          · simp [h1, h2]
      · unfold rowBinLabel
        by_cases h2 : n ∈ (rowAssignment t parent children root leafOf Y).2
        · have h1 := hdisjPN h2
          simp [h1, h2]
        · by_cases h1 : n ∈ (rowAssignment t parent children root leafOf Y).1
          · simp only [h1, h2]
            simp
          · simp [h1, h2]

/-- Witness for row_assignment_correct: the 7-node binary tree with row
labels {1, 3} gives positives {0, 1, 4, 2, 6} (the two leaf-to-root paths)
and negatives {3, 5} (their non-positive siblings). -/
theorem row_assignment_correct_witness :
    ValidTree 7 exParent exChildren 0 exDepth ∧
    (∀ y ∈ [1, 3], exLeafOf y < 7) ∧
    ((([1, 3] : List Nat) = [] →
      rowAssignment 7 exParent exChildren 0 exLeafOf [1, 3] = (∅, {0})) ∧
    (([1, 3] : List Nat) ≠ [] →
      (∀ m, m ∈ (rowAssignment 7 exParent exChildren 0 exLeafOf [1, 3]).1 ↔
        ∃ y ∈ [1, 3], ∃ j, parentIter exParent j (exLeafOf y) = some m) ∧
      (∀ m, m ∈ (rowAssignment 7 exParent exChildren 0 exLeafOf [1, 3]).2 ↔
        ∃ p, p ∈ (rowAssignment 7 exParent exChildren 0 exLeafOf [1, 3]).1 ∧
          m ∈ exChildren p ∧
          m ∉ (rowAssignment 7 exParent exChildren 0 exLeafOf [1, 3]).1)) ∧
    (∀ n, (rowBinLabel 7 exParent exChildren 0 exLeafOf [1, 3] n = some 1 ↔
        n ∈ (rowAssignment 7 exParent exChildren 0 exLeafOf [1, 3]).1) ∧
      (rowBinLabel 7 exParent exChildren 0 exLeafOf [1, 3] n = some 0 ↔
        n ∈ (rowAssignment 7 exParent exChildren 0 exLeafOf [1, 3]).2))) ∧
    rowAssignment 7 exParent exChildren 0 exLeafOf [1, 3] =
      ({0, 1, 4, 2, 6}, {3, 5}) := by
  have hvt : ValidTree 7 exParent exChildren 0 exDepth := by
    refine ⟨?_, ?_, ?_, ?_, ?_, ?_, ?_, ?_, ?_, ?_⟩
    · decide
    · rfl
    · decide
    · intro n hn p hp
      interval_cases n <;> simp [exParent] at hp <;> omega
    · decide
    · decide
    · decide
    · rfl
    · intro n hn p hp
      interval_cases n <;> simp [exParent] at hp <;> subst hp <;> decide
    · decide
  exact ⟨hvt, by decide,
    row_assignment_correct 7 exParent exChildren 0 exDepth exLeafOf [1, 3]
      hvt (by decide),
    by decide⟩

section PredictorLemmas

theorem popMax_spec : ∀ (q : List (TreeB × ℚ)) (m : TreeB × ℚ)
    (r : List (TreeB × ℚ)), popMax q = some (m, r) →
    m ∈ q ∧ (∀ e ∈ r, e ∈ q) ∧ (∀ e ∈ q, e.2 ≤ m.2) := by
  intro q
  induction q with
  | nil =>
    intro m r h
    cases h
  | cons x xs ih =>
    intro m r h
    simp only [popMax] at h
    cases hx : popMax xs with
    | none =>
      have hxs : xs = [] := by
        cases xs with
        | nil => rfl
        | cons y ys =>
          exfalso
          simp only [popMax] at hx
          cases hy : popMax ys with
          | none => rw [hy] at hx; cases hx
          | some mr =>
            rw [hy] at hx
            obtain ⟨m', r'⟩ := mr
            by_cases hle : m'.2 ≤ y.2 <;> simp [hle] at hx
      have h2 : some (x, ([] : List (TreeB × ℚ))) = some (m, r) := by
        rw [← h, hx]
      injection h2 with h1
      injection h1 with h2 h3
      subst h2
      subst hxs
      refine ⟨List.mem_cons_self x [], ?_, ?_⟩
      · intro e he
        rw [← h3] at he
        cases he
      · intro e he
        rcases List.mem_cons.mp he with he | he
        · rw [he]
        · cases he
    | some mr =>
      obtain ⟨m', r'⟩ := mr
      rw [hx] at h
      obtain ⟨hm'm, hr'sub, hm'max⟩ := ih m' r' hx
      by_cases hle : m'.2 ≤ x.2
      · have h2 : some (x, xs) = some (m, r) := by
          rw [← h]
          simp [hle]
        injection h2 with h1
        injection h1 with h2 h3
        subst h2
        subst h3
        refine ⟨List.mem_cons_self x xs, fun e he => List.mem_cons_of_mem x he, ?_⟩
        intro e he
        rcases List.mem_cons.mp he with he | he
        · rw [he]
        · exact le_trans (hm'max e he) hle
      · have h2 : some (m', x :: r') = some (m, r) := by
          rw [← h]
          simp [hle]
        injection h2 with h1
        injection h1 with h2 h3
        subst h2
        subst h3
        refine ⟨List.mem_cons_of_mem x hm'm, ?_, ?_⟩
        · intro e he
          rcases List.mem_cons.mp he with he | he
          · rw [he]; exact List.mem_cons_self x xs
          · exact List.mem_cons_of_mem x (hr'sub e he)
        · intro e he
          rcases List.mem_cons.mp he with he | he
          · rw [he]; exact le_of_lt (lt_of_not_le hle)
          · exact hm'max e he

theorem annot_self (bp : Nat → ℚ) : ∀ (s : TreeB) (q : ℚ),
    (s, q) ∈ annot bp s q := by
  intro s q
  cases s with
  | node l i cs =>
    rw [annot]
    exact List.mem_cons_self _ _

theorem annotList_child (bp : Nat → ℚ) : ∀ (cs : List TreeB) (p : ℚ) (c : TreeB),
    c ∈ cs → (c, p * bp c.idx) ∈ annotList bp cs p := by
  intro cs
  induction cs with
  | nil =>
    intro p c hc
    cases hc
  | cons a as ih =>
    intro p c hc
    rw [annotList]
    rcases List.mem_cons.mp hc with h | h
    · subst h
      exact List.mem_append.mpr (Or.inl (annot_self bp c (p * bp c.idx)))
    · exact List.mem_append.mpr (Or.inr (ih p c h))

theorem annot_nonneg (bp : Nat → ℚ) (hb : ∀ i, 0 ≤ bp i ∧ bp i ≤ 1) :
    ∀ (s : TreeB) (p : ℚ), 0 ≤ p → ∀ e ∈ annot bp s p, 0 ≤ e.2 := by
  intro s
  induction s using TreeB.rec
    (motive_2 := fun cs => ∀ (p : ℚ), 0 ≤ p → ∀ e ∈ annotList bp cs p, 0 ≤ e.2) with
  | node l i cs ih =>
    intro p hp e he
    rw [annot] at he
    rcases List.mem_cons.mp he with h | h
    · rw [h]
      exact hp
    · exact ih p hp e h
  | nil =>
    rename_i p hp e he
    simp [annotList] at he
  | cons c cs ihc ihcs =>
    rename_i p hp e he
    rw [annotList] at he
    rcases List.mem_append.mp he with h | h
    · exact ihc (p * bp c.idx) (mul_nonneg hp (hb c.idx).1) e h
    · exact ihcs p hp e h

theorem annot_mem_children (bp : Nat → ℚ) :
    ∀ (s : TreeB) (p : ℚ) (e : TreeB × ℚ), e ∈ annot bp s p →
      ∀ c ∈ e.1.children, (c, e.2 * bp c.idx) ∈ annot bp s p := by
  intro s
  induction s using TreeB.rec
    (motive_2 := fun cs => ∀ (p : ℚ) (e : TreeB × ℚ), e ∈ annotList bp cs p →
      ∀ c ∈ e.1.children, (c, e.2 * bp c.idx) ∈ annotList bp cs p) with
  | node l i cs ih =>
    intro p e he c hc
    rw [annot] at he ⊢
    rcases List.mem_cons.mp he with h | h
    · subst h
      exact List.mem_cons_of_mem _ (annotList_child bp cs p c hc)
    · exact List.mem_cons_of_mem _ (ih p e h c hc)
  | nil =>
    rename_i p e he c hc
    simp [annotList] at he
  | cons a as iha ihas =>
    rename_i p e he c hc
    rw [annotList] at he ⊢
    rcases List.mem_append.mp he with h | h
    · exact List.mem_append.mpr (Or.inl (iha _ e h c hc))
    · exact List.mem_append.mpr (Or.inr (ihas p e h c hc))

theorem predictLoop_spec (bp : Nat → ℚ) (hb : ∀ i, 0 ≤ bp i ∧ bp i ≤ 1)
    (tree : TreeB) (p0 : ℚ) (k : Nat) :
    ∀ (fuel : Nat) (q : List (TreeB × ℚ)) (acc : List (Int × ℚ)),
      (∀ e ∈ q, e ∈ annot bp tree p0) →
      (∀ e ∈ q, 0 ≤ e.2) →
      List.Chain' (fun a b => b.2 ≤ a.2) acc →
      (∀ e ∈ q, ∀ a ∈ acc.getLast?, e.2 ≤ a.2) →
      (∀ a ∈ acc, ∃ s, (s, a.2) ∈ annot bp tree p0 ∧ s.label = a.1 ∧ 0 ≤ a.1) →
      List.Chain' (fun a b => b.2 ≤ a.2) (predictLoop bp k fuel q acc) ∧
      (acc.length < k → (predictLoop bp k fuel q acc).length ≤ k) ∧
      (∀ a ∈ predictLoop bp k fuel q acc,
        ∃ s, (s, a.2) ∈ annot bp tree p0 ∧ s.label = a.1 ∧ 0 ≤ a.1) := by
  intro fuel
  induction fuel with
  | zero =>
    intro q acc _ _ hacc1 _ hacc3
    exact ⟨hacc1, fun h => le_of_lt h, hacc3⟩
  | succ fuel ih =>
    intro q acc hq1 hq2 hacc1 hacc2 hacc3
    cases hpm : popMax q with
    | none =>
      have heq : predictLoop bp k (fuel + 1) q acc = acc := by
        simp [predictLoop, hpm]
      rw [heq]
      exact ⟨hacc1, fun h => le_of_lt h, hacc3⟩
    | some mr =>
      obtain ⟨m, q'⟩ := mr
      obtain ⟨hm_mem, hsub, hmax⟩ := popMax_spec q m q' hpm
      have hmA : m ∈ annot bp tree p0 := hq1 m hm_mem
      have hm0 : 0 ≤ m.2 := hq2 m hm_mem
      by_cases hleaf : 0 ≤ m.1.label
      · have heq : predictLoop bp k (fuel + 1) q acc =
            (if k ≤ (acc ++ [(m.1.label, m.2)]).length then
              acc ++ [(m.1.label, m.2)]
             else predictLoop bp k fuel q' (acc ++ [(m.1.label, m.2)])) := by
          simp [predictLoop, hpm, hleaf]
        have hchain' : List.Chain' (fun a b : Int × ℚ => b.2 ≤ a.2)
            (acc ++ [(m.1.label, m.2)]) := by
          rw [List.chain'_append]
          refine ⟨hacc1, List.chain'_singleton _, ?_⟩
          intro a ha b hb
          simp only [List.head?_cons, Option.mem_some_iff] at hb
          rw [← hb]
          exact hacc2 m hm_mem a ha
        have hacc3' : ∀ a ∈ acc ++ [(m.1.label, m.2)],
            ∃ s, (s, a.2) ∈ annot bp tree p0 ∧ s.label = a.1 ∧ 0 ≤ a.1 := by
          intro a ha
          rcases List.mem_append.mp ha with ha | ha
          · exact hacc3 a ha
          · rcases List.mem_cons.mp ha with ha | ha
            · rw [ha]
              exact ⟨m.1, hmA, rfl, hleaf⟩
            · cases ha
        have hlast' : (acc ++ [(m.1.label, m.2)]).getLast? = some (m.1.label, m.2) := by
          simp
        rw [heq]
        by_cases hstop : k ≤ (acc ++ [(m.1.label, m.2)]).length
        · rw [if_pos hstop]
          refine ⟨hchain', fun hlt => ?_, hacc3'⟩
          rw [List.length_append]
          simp only [List.length_cons, List.length_nil]
          omega
        · rw [if_neg hstop]
          have hlt' : (acc ++ [(m.1.label, m.2)]).length < k := by
            omega
          obtain ⟨c1, c2, c3⟩ := ih q' (acc ++ [(m.1.label, m.2)])
            (fun e he => hq1 e (hsub e he))
            (fun e he => hq2 e (hsub e he))
            hchain'
            (by
              intro e he a ha
              rw [hlast'] at ha
              rcases Option.mem_some_iff.mp ha with ha
              rw [← ha]
              exact hmax e (hsub e he))
            hacc3'
          exact ⟨c1, fun _ => c2 hlt', c3⟩
      · have heq : predictLoop bp k (fuel + 1) q acc =
            predictLoop bp k fuel
              (q' ++ m.1.children.map (fun c => (c, m.2 * bp c.idx))) acc := by
          simp [predictLoop, hpm, hleaf]
        rw [heq]
        apply ih
        · intro e he
          rcases List.mem_append.mp he with he | he
          · exact hq1 e (hsub e he)
          · obtain ⟨c, hc, hce⟩ := List.mem_map.mp he
            rw [← hce]
            exact annot_mem_children bp tree p0 m hmA c hc
        · intro e he
          rcases List.mem_append.mp he with he | he
          · exact hq2 e (hsub e he)
          · obtain ⟨c, hc, hce⟩ := List.mem_map.mp he
            rw [← hce]
            exact mul_nonneg hm0 (hb c.idx).1
        · exact hacc1
        · intro e he a ha
          rcases List.mem_append.mp he with he | he
          · exact hacc2 e (hsub e he) a ha
          · obtain ⟨c, hc, hce⟩ := List.mem_map.mp he
            rw [← hce]
            calc m.2 * bp c.idx ≤ m.2 :=
                  mul_le_of_le_one_right hm0 (hb c.idx).2
              _ ≤ a.2 := hacc2 m hm_mem a ha
        · exact hacc3

end PredictorLemmas

/-- C1 counterexample: with `k = 0` the loop still emits the first popped
leaf before checking `prediction.size() >= k` (pltree.cpp:169-171), so on a
single-leaf tree with all base probabilities 1 (inside [0,1]) it returns one
prediction instead of stopping at zero. -/
theorem predict_k0_counterexample :
    (∀ i : Nat, 0 ≤ (fun _ => (1 : ℚ)) i ∧ (fun _ => (1 : ℚ)) i ≤ 1) ∧
    pltPredict (fun _ => (1 : ℚ)) (.node 0 0 []) 0 1 = [(0, 1)] ∧
    ¬ ((pltPredict (fun _ => (1 : ℚ)) (.node 0 0 []) 0 1).length ≤ 0) := by
  refine ⟨fun i => ⟨by norm_num, le_refl 1⟩, rfl, ?_⟩
  rw [show pltPredict (fun _ => (1 : ℚ)) (.node 0 0 []) 0 1 = [(0, 1)] from rfl]
  decide

/-- C1 (amended, k ≥ 1): PLTree::predict (pltree.cpp:154-180) is the
best-first traversal over the max-priority queue seeded with
`(root, bases[root](x))`; provided every per-node probability lies in [0, 1]
and `k ≥ 1`: the emitted cumulative probabilities are non-increasing in
emission order; at most k predictions are emitted (the loop breaks as soon as
the k-th is emitted); every emitted pair is a leaf (label ≥ 0) carrying its
cumulative path probability from the annotation of the tree; and along every
root-to-leaf path the cumulative probability is non-increasing (each child's
cumulative value `p · bases[child](x)` is ≤ its parent's `p`).  For `k = 0`
the code emits one prediction, which is the sole correction to the claim. -/
theorem predict_bestfirst (bp : Nat → ℚ) (tree : TreeB) (k fuel : Nat)
    (hb : ∀ i, 0 ≤ bp i ∧ bp i ≤ 1) (hk : 1 ≤ k) :
    List.Chain' (fun a b => b.2 ≤ a.2) (pltPredict bp tree k fuel) ∧
    (pltPredict bp tree k fuel).length ≤ k ∧
    (∀ a ∈ pltPredict bp tree k fuel,
      ∃ s, (s, a.2) ∈ annot bp tree (bp tree.idx) ∧ s.label = a.1 ∧ 0 ≤ a.1) ∧
    (∀ e ∈ annot bp tree (bp tree.idx), 0 ≤ e.2 ∧
      ∀ c ∈ e.1.children, e.2 * bp c.idx ≤ e.2) := by
  have hroot0 : (0 : ℚ) ≤ bp tree.idx := (hb tree.idx).1
  obtain ⟨c1, c2, c3⟩ := predictLoop_spec bp hb tree (bp tree.idx) k fuel
    [(tree, bp tree.idx)] []
    (by
      intro e he
      rcases List.mem_cons.mp he with he | he
      · rw [he]
        exact annot_self bp tree (bp tree.idx)
      · cases he)
    (by
      intro e he
      rcases List.mem_cons.mp he with he | he
      · rw [he]
        exact hroot0
      · cases he)
    List.chain'_nil
    (by
      intro e _ a ha
      simp at ha)
    (by
      intro a ha
      cases ha)
  refine ⟨c1, c2 (by simp only [List.length_nil]; omega), c3, ?_⟩
  intro e he
  have h0 : 0 ≤ e.2 := annot_nonneg bp hb tree (bp tree.idx) hroot0 e he
  exact ⟨h0, fun c _ => mul_le_of_le_one_right h0 (hb c.idx).2⟩

/-- Witness for predict_bestfirst: the 7-node binary tree with concrete
probabilities, k = 2. -/
theorem predict_bestfirst_witness :
    (∀ i, 0 ≤ exProbs i ∧ exProbs i ≤ 1) ∧ 1 ≤ 2 ∧
    (List.Chain' (fun a b => b.2 ≤ a.2) (pltPredict exProbs exTreeB 2 20) ∧
    (pltPredict exProbs exTreeB 2 20).length ≤ 2 ∧
    (∀ a ∈ pltPredict exProbs exTreeB 2 20,
      ∃ s, (s, a.2) ∈ annot exProbs exTreeB (exProbs exTreeB.idx) ∧
        s.label = a.1 ∧ 0 ≤ a.1) ∧
    (∀ e ∈ annot exProbs exTreeB (exProbs exTreeB.idx), 0 ≤ e.2 ∧
      ∀ c ∈ e.1.children, e.2 * exProbs c.idx ≤ e.2)) :=
  ⟨by intro i; constructor <;> (unfold exProbs; split <;> norm_num), by decide,
    predict_bestfirst exProbs exTreeB 2 20
      (by intro i; constructor <;> (unfold exProbs; split <;> norm_num))
      (by decide)⟩

end NapkinXC
